import Mathlib

/-!
# Song lyric search: word index, bounded top-N ranking and context windows

A shallow embedding of `songsearch.go`.

* Go `int` values are modelled by `Int` (all values that occur are slice lengths and
  indices, far below the 64-bit range, so no wrap-around is modelled).
* A slice is a `List`; an in-place update of a slice is a function returning the new list.
* A run-time panic (index out of range) is the result `none`.
* `map[string][]songUsage` is a function `String → Option (List songUsage)`;
  `map[string][]int`, which the program iterates over, is an association list whose
  order of entries is the order of iteration.
* The package variables `TopNSongsToReturn` and `NumContextWords` are parameters.
* A Go string is modelled by a `String`, a sequence of Unicode characters; strings that
  are not valid UTF-8 are outside the model. `strings.ToLower` is the character-wise
  lower-case mapping of the library, including its table for the characters outside
  ASCII.
-/

namespace SongSearch

/-! ## Data model -/

/-- The record `song`: artist, title and the lyric tokens in their original order. -/
structure song where
  artist : String
  title : String
  lyrics : List String
  deriving DecidableEq

/-- The record `songUsage`: every position at which a word is used in the song `songIndex`. -/
structure songUsage where
  songIndex : Int
  positions : List Int
  deriving DecidableEq

/-- Occurrence count of a retained entry, `len(usage.positions)`. -/
def songUsage.count (u : songUsage) : Nat := u.positions.length

/-- The map `mostCommonUsages : map[string][]songUsage`. -/
abbrev Ranking := String → Option (List songUsage)

/-- The map `songWordUsages : map[string][]int`, entries listed in iteration order. -/
abbrev PerSongUsageMap := List (String × List Int)

/-- The result of `make(map[string][]songUsage)`. -/
def emptyRanking : Ranking := fun _ => none

/-- The assignment `m[word] = usage` on the ranking map. -/
def mapAssign (m : Ranking) (word : String) (usage : List songUsage) : Ranking :=
  fun k => if k = word then some usage else m k

/-- The lookup `v, ok := m[k]` on a per-song usage map. -/
def usageLookup : PerSongUsageMap → String → Option (List Int)
  | [], _ => none
  | (k, v) :: rest, key => if k = key then some v else usageLookup rest key

/-- The assignment `m[key] = value` on a per-song usage map: an existing key keeps its
place, a new key is added. -/
def usageAssign : PerSongUsageMap → String → List Int → PerSongUsageMap
  | [], key, value => [(key, value)]
  | (k, v) :: rest, key, value =>
    if k = key then (key, value) :: rest else (k, v) :: usageAssign rest key value

/-- The slice index expression `xs[i]` for a Go `int` index; `none` is the panic
"index out of range". -/
def goIndex {α : Type} (xs : List α) (i : Int) : Option α :=
  if i < 0 then none else xs[i.toNat]?

/-! ## Normalization (lines 150-151 of `main`) -/

/-- The lower-case part of the case table of the Go package `unicode` (the simple
lower-case mappings of the Unicode character database, version 14.0) for the code
points from 128 on. An entry `(lo, hi, stride, delta)` says that each of the code
points `lo`, `lo + stride`, ..., `hi` is mapped to itself plus `delta`; a code point in
no entry is mapped to itself. -/
def lowerCaseRanges : List (Nat × Nat × Nat × Int) :=
  [(192, 214, 1, 32), (216, 222, 1, 32), (256, 302, 2, 1), (304, 304, 1, -199),
   (306, 310, 2, 1), (313, 327, 2, 1), (330, 374, 2, 1), (376, 376, 1, -121),
   (377, 381, 2, 1), (385, 385, 1, 210), (386, 388, 2, 1), (390, 390, 1, 206),
   (391, 391, 1, 1), (393, 394, 1, 205), (395, 395, 1, 1), (398, 398, 1, 79),
   (399, 399, 1, 202), (400, 400, 1, 203), (401, 401, 1, 1), (403, 403, 1, 205),
   (404, 404, 1, 207), (406, 406, 1, 211), (407, 407, 1, 209), (408, 408, 1, 1),
   (412, 412, 1, 211), (413, 413, 1, 213), (415, 415, 1, 214), (416, 420, 2, 1),
   (422, 422, 1, 218), (423, 423, 1, 1), (425, 425, 1, 218), (428, 428, 1, 1),
   (430, 430, 1, 218), (431, 431, 1, 1), (433, 434, 1, 217), (435, 437, 2, 1),
   (439, 439, 1, 219), (440, 440, 1, 1), (444, 444, 1, 1), (452, 452, 1, 2),
   (453, 453, 1, 1), (455, 455, 1, 2), (456, 456, 1, 1), (458, 458, 1, 2),
   (459, 475, 2, 1), (478, 494, 2, 1), (497, 497, 1, 2), (498, 500, 2, 1),
   (502, 502, 1, -97), (503, 503, 1, -56), (504, 542, 2, 1), (544, 544, 1, -130),
   (546, 562, 2, 1), (570, 570, 1, 10795), (571, 571, 1, 1), (573, 573, 1, -163),
   (574, 574, 1, 10792), (577, 577, 1, 1), (579, 579, 1, -195), (580, 580, 1, 69),
   (581, 581, 1, 71), (582, 590, 2, 1), (880, 882, 2, 1), (886, 886, 1, 1),
   (895, 895, 1, 116), (902, 902, 1, 38), (904, 906, 1, 37), (908, 908, 1, 64),
   (910, 911, 1, 63), (913, 929, 1, 32), (931, 939, 1, 32), (975, 975, 1, 8),
   (984, 1006, 2, 1), (1012, 1012, 1, -60), (1015, 1015, 1, 1), (1017, 1017, 1, -7),
   (1018, 1018, 1, 1), (1021, 1023, 1, -130), (1024, 1039, 1, 80), (1040, 1071, 1, 32),
   (1120, 1152, 2, 1), (1162, 1214, 2, 1), (1216, 1216, 1, 15), (1217, 1229, 2, 1),
   (1232, 1326, 2, 1), (1329, 1366, 1, 48), (4256, 4293, 1, 7264), (4295, 4295, 1, 7264),
   (4301, 4301, 1, 7264), (5024, 5103, 1, 38864), (5104, 5109, 1, 8), (7312, 7354, 1, -3008),
   (7357, 7359, 1, -3008), (7680, 7828, 2, 1), (7838, 7838, 1, -7615), (7840, 7934, 2, 1),
   (7944, 7951, 1, -8), (7960, 7965, 1, -8), (7976, 7983, 1, -8), (7992, 7999, 1, -8),
   (8008, 8013, 1, -8), (8025, 8031, 2, -8), (8040, 8047, 1, -8), (8072, 8079, 1, -8),
   (8088, 8095, 1, -8), (8104, 8111, 1, -8), (8120, 8121, 1, -8), (8122, 8123, 1, -74),
   (8124, 8124, 1, -9), (8136, 8139, 1, -86), (8140, 8140, 1, -9), (8152, 8153, 1, -8),
   (8154, 8155, 1, -100), (8168, 8169, 1, -8), (8170, 8171, 1, -112), (8172, 8172, 1, -7),
   (8184, 8185, 1, -128), (8186, 8187, 1, -126), (8188, 8188, 1, -9), (8486, 8486, 1, -7517),
   (8490, 8490, 1, -8383), (8491, 8491, 1, -8262), (8498, 8498, 1, 28), (8544, 8559, 1, 16),
   (8579, 8579, 1, 1), (9398, 9423, 1, 26), (11264, 11311, 1, 48), (11360, 11360, 1, 1),
   (11362, 11362, 1, -10743), (11363, 11363, 1, -3814), (11364, 11364, 1, -10727), (11367, 11371, 2, 1),
   (11373, 11373, 1, -10780), (11374, 11374, 1, -10749), (11375, 11375, 1, -10783), (11376, 11376, 1, -10782),
   (11378, 11378, 1, 1), (11381, 11381, 1, 1), (11390, 11391, 1, -10815), (11392, 11490, 2, 1),
   (11499, 11501, 2, 1), (11506, 11506, 1, 1), (42560, 42604, 2, 1), (42624, 42650, 2, 1),
   (42786, 42798, 2, 1), (42802, 42862, 2, 1), (42873, 42875, 2, 1), (42877, 42877, 1, -35332),
   (42878, 42886, 2, 1), (42891, 42891, 1, 1), (42893, 42893, 1, -42280), (42896, 42898, 2, 1),
   (42902, 42920, 2, 1), (42922, 42922, 1, -42308), (42923, 42923, 1, -42319), (42924, 42924, 1, -42315),
   (42925, 42925, 1, -42305), (42926, 42926, 1, -42308), (42928, 42928, 1, -42258), (42929, 42929, 1, -42282),
   (42930, 42930, 1, -42261), (42931, 42931, 1, 928), (42932, 42946, 2, 1), (42948, 42948, 1, -48),
   (42949, 42949, 1, -42307), (42950, 42950, 1, -35384), (42951, 42953, 2, 1), (42960, 42960, 1, 1),
   (42966, 42968, 2, 1), (42997, 42997, 1, 1), (65313, 65338, 1, 32), (66560, 66599, 1, 40),
   (66736, 66771, 1, 40), (66928, 66928, 1, 39), (66929, 66938, 1, 39), (66940, 66954, 1, 39),
   (66956, 66962, 1, 39), (66964, 66965, 1, 39), (68736, 68786, 1, 64), (71840, 71871, 1, 32),
   (93760, 93791, 1, 32), (125184, 125217, 1, 34)]

/-- The library function `unicode.ToLower` on one character: the letters `A`-`Z` are
mapped to `a`-`z` and the other ASCII characters are left as they are; a character
outside ASCII is looked up in the case table. -/
def unicodeToLower (c : Char) : Char :=
  if c.toNat < 128 then
    if 'A' ≤ c ∧ c ≤ 'Z' then Char.ofNat (c.toNat + 32) else c
  else
    match lowerCaseRanges.find?
        (fun e => decide (e.1 ≤ c.toNat ∧ c.toNat ≤ e.2.1 ∧ (c.toNat - e.1) % e.2.2.1 = 0)) with
    | some e => Char.ofNat ((c.toNat : Int) + e.2.2.2).toNat
    | none => c

/-- The library function `strings.ToLower`: every character of the string is replaced by
its lower-case mapping `unicode.ToLower`. -/
def stringsToLower (s : String) : String := ⟨s.data.map unicodeToLower⟩

/-- Whether a character is matched by the class `[a-zA-Z0-9]`. -/
def isAlnumChar (c : Char) : Bool :=
  ('a' ≤ c ∧ c ≤ 'z') ∨ ('A' ≤ c ∧ c ≤ 'Z') ∨ ('0' ≤ c ∧ c ≤ '9')

/-- The call `reg.ReplaceAllString(word, "")` for `reg = [^a-zA-Z0-9]+`: every maximal run
of characters outside the class is replaced by the empty string. -/
def regReplaceAllString (word : String) : String := ⟨word.data.filter isAlnumChar⟩

/-- Lines 150-151: `normalizedWord := reg.ReplaceAllString(word, "")` followed by
`normalizedWord = strings.ToLower(word)`; the second assignment reads `word`, not
`normalizedWord`, and overwrites the first. -/
def normalizeWord (word : String) : String :=
  let normalizedWord := regReplaceAllString word
  let normalizedWord := (fun _ => stringsToLower word) normalizedWord
  normalizedWord

/-! ## The indexer (lines 145-161 of `main`) -/

/-- The loop `for wordIndex, word := range song.lyrics` over the remaining tokens,
`wordIndex` being the index of the first of them. (The diagnostic `Printf` for words
containing "oink" writes to the output only and is left out.) -/
def indexLoop (songWordUsages : PerSongUsageMap) (wordIndex : Int) :
    List String → PerSongUsageMap
  | [] => songWordUsages
  | word :: rest =>
    let normalizedWord := normalizeWord word
    match usageLookup songWordUsages normalizedWord with
    | some l =>
      indexLoop (usageAssign songWordUsages normalizedWord (l ++ [wordIndex])) (wordIndex + 1) rest
    | none =>
      indexLoop (usageAssign songWordUsages normalizedWord [wordIndex]) (wordIndex + 1) rest

/-- The per-song usage map built for one song: `make(map[string][]int)` followed by the
loop over the lyrics. -/
def indexSong (lyrics : List String) : PerSongUsageMap := indexLoop [] 0 lyrics

/-! ## Reordering (`bubbleSortSongUsages`) -/

/-- The loop of `bubbleSortSongUsages` from the value `index` of the loop variable down.
The two reads are in range whenever `index < len(usages)`, which the caller
guarantees; the last case is therefore never taken. -/
def bubbleLoop (usages : List songUsage) : Nat → List songUsage
  | 0 => usages
  | index + 1 =>
    match usages[index + 1]?, usages[index]? with
    | some cur, some prev =>
      if cur.positions.length > prev.positions.length then
        bubbleLoop ((usages.set (index + 1) prev).set index cur) index
      else
        usages
    | _, _ => usages

/-- The function `bubbleSortSongUsages`: the loop starts at `len(usages) - 1` and runs
while `index > 0`. -/
def bubbleSortSongUsages (usages : List songUsage) : List songUsage :=
  bubbleLoop usages (usages.length - 1)

/-! ## The aggregator (lines 166-198 of `main`) -/

/-- The body of the loop `for word, indices := range songWordUsages` for one pair. -/
def updateWord (TopNSongsToReturn : Int) (mostCommonUsages : Ranking) (songIndex : Int)
    (word : String) (indices : List Int) : Option Ranking :=
  match mostCommonUsages word with
  | some globalUsages =>
    if (globalUsages.length : Int) < TopNSongsToReturn then
      let s : songUsage := ⟨songIndex, indices⟩
      let globalUsages := bubbleSortSongUsages (globalUsages ++ [s])
      some (mapAssign mostCommonUsages word globalUsages)
    else
      match goIndex globalUsages (TopNSongsToReturn - 1) with
      | none => none
      | some nth =>
        if nth.positions.length < indices.length then
          let s : songUsage := ⟨songIndex, indices⟩
          let globalUsages :=
            bubbleSortSongUsages (globalUsages.set (TopNSongsToReturn - 1).toNat s)
          some (mapAssign mostCommonUsages word globalUsages)
        else
          some mostCommonUsages
  | none =>
    let s : songUsage := ⟨songIndex, indices⟩
    some (mapAssign mostCommonUsages word [s])

/-- The loop `for word, indices := range songWordUsages` for one song: the ingestion
of the usage map of the song `songIndex`. -/
def ingest (TopNSongsToReturn : Int) (mostCommonUsages : Ranking) (songIndex : Int) :
    PerSongUsageMap → Option Ranking
  | [] => some mostCommonUsages
  | (word, indices) :: rest =>
    match updateWord TopNSongsToReturn mostCommonUsages songIndex word indices with
    | none => none
    | some next => ingest TopNSongsToReturn next songIndex rest

/-- Ingestion of a sequence of songs, each given by its index and its usage map, in
the order of the list. -/
def ingestSongs (TopNSongsToReturn : Int) (mostCommonUsages : Ranking) :
    List (Int × PerSongUsageMap) → Option Ranking
  | [] => some mostCommonUsages
  | (songIndex, usageMap) :: rest =>
    match ingest TopNSongsToReturn mostCommonUsages songIndex usageMap with
    | none => none
    | some next => ingestSongs TopNSongsToReturn next rest

/-- The loop `for songIndex, song := range songs` of `main` over the remaining songs,
`songIndex` being the index of the first of them. -/
def processSongs (TopNSongsToReturn : Int) (mostCommonUsages : Ranking) (songIndex : Int) :
    List song → Option Ranking
  | [] => some mostCommonUsages
  | s :: rest =>
    match ingest TopNSongsToReturn mostCommonUsages songIndex (indexSong s.lyrics) with
    | none => none
    | some next => processSongs TopNSongsToReturn next (songIndex + 1) rest

/-- The ranking that `main` hands to `doSearch`. -/
def buildIndex (TopNSongsToReturn : Int) (songs : List song) : Option Ranking :=
  processSongs TopNSongsToReturn emptyRanking 0 songs

/-! ## Context extraction (`makeContextFromWordIndices`) -/

/-- The pair `(startIndex, endIndex)` computed for one `wordIndex` (lines 69-80). -/
def contextWindow (NumContextWords lyricsLength wordIndex : Int) : Int × Int :=
  let lastIndex := lyricsLength - 1
  if wordIndex < NumContextWords then
    (0, wordIndex + NumContextWords)
  else if wordIndex > lastIndex - NumContextWords then
    (wordIndex - NumContextWords, lyricsLength - 1)
  else
    (wordIndex - NumContextWords, wordIndex + NumContextWords)

/-- The loop `for index := startIndex; index <= endIndex; index++` with `remaining`
iterations left, writing each word and one space to the buffer. -/
def writeWords (lyrics : List String) (index : Int) (wordsBuf : String) :
    Nat → Option String
  | 0 => some wordsBuf
  | remaining + 1 =>
    match goIndex lyrics index with
    | none => none
    | some word => writeWords lyrics (index + 1) (wordsBuf ++ word ++ " ") remaining

/-- The context string of one `wordIndex` (the body of the outer loop, lines 69-86). -/
def contextString (NumContextWords : Int) (lyrics : List String) (wordIndex : Int) :
    Option String :=
  let lyricsLength : Int := lyrics.length
  let window := contextWindow NumContextWords lyricsLength wordIndex
  writeWords lyrics window.1 "" (window.2 - window.1 + 1).toNat

/-- The loop `for _, wordIndex := range indices`, appending one string per index. -/
def contextLoop (NumContextWords : Int) (lyrics : List String) :
    List Int → Option (List String)
  | [] => some []
  | wordIndex :: rest =>
    match contextString NumContextWords lyrics wordIndex with
    | none => none
    | some str =>
      match contextLoop NumContextWords lyrics rest with
      | none => none
      | some strs => some (str :: strs)

/-- The function `makeContextFromWordIndices`. -/
def makeContextFromWordIndices (NumContextWords : Int) (songs : List song) (songIndex : Int)
    (indices : List Int) : Option (List String) :=
  match goIndex songs songIndex with
  | none => none
  | some s => contextLoop NumContextWords s.lyrics indices

/-! ## Query resolution (`doSearch`) -/

/-- The call `strings.TrimSuffix(text, "\n")`. -/
def trimNewline (text : String) : String :=
  if text.data.getLast? = some '\n' then ⟨text.data.dropLast⟩ else text

/-- What is printed for one retained song: the rank `i+1`, the number of occurrences and,
for every position, title, artist and context. -/
structure searchResult where
  rank : Int
  occurrences : Int
  entries : List (String × String × String)
  deriving DecidableEq

/-- The outcome of one round of the loop of `doSearch`. -/
inductive searchOutcome where
  | exit
  | notFound
  | found (results : List searchResult)
  deriving DecidableEq

/-- The loop `for i, songUsage := range usage` of `doSearch` over the remaining entries,
`i` being the index of the first of them. -/
def searchResults (NumContextWords : Int) (songs : List song) (i : Int) :
    List songUsage → Option (List searchResult)
  | [] => some []
  | songUsage :: rest =>
    match goIndex songs songUsage.songIndex with
    | none => none
    | some s =>
      match makeContextFromWordIndices NumContextWords songs songUsage.songIndex
          songUsage.positions with
      | none => none
      | some contextStrings =>
        match (List.range songUsage.positions.length).mapM
            (fun j => (contextStrings[j]?).map (fun c => (s.title, s.artist, c))) with
        | none => none
        | some entries =>
          match searchResults NumContextWords songs (i + 1) rest with
          | none => none
          | some more => some (⟨i + 1, songUsage.positions.length, entries⟩ :: more)

/-- One round of the loop of `doSearch` for the line `text` read from the input
(lines 110-130). -/
def doSearchStep (NumContextWords : Int) (songs : List song) (usages : Ranking)
    (text : String) : Option searchOutcome :=
  let text := trimNewline text
  if text = "EXIT" then
    some searchOutcome.exit
  else
    match usages text with
    | some usage =>
      match searchResults NumContextWords songs 0 usage with
      | none => none
      | some results => some (searchOutcome.found results)
    | none => some searchOutcome.notFound

/-! ## States, histories and specification-side notions -/

/-- The retained sequence of a word: the slice stored under `w`, empty when `w` has no
entry. -/
def retained (r : Ranking) (w : String) : List songUsage := (r w).getD []

/-- A sequence of entries that is non-increasing by occurrence count. -/
def nonIncreasing (usages : List songUsage) : Prop :=
  usages.Pairwise (fun a b => b.count ≤ a.count)

/-- One execution of the loop body of lines 166-198: song index, word, positions. -/
abbrev wordUpdate := Int × String × List Int

/-- A sequence of executions of the loop body, in order. -/
def applyUpdates (TopNSongsToReturn : Int) (mostCommonUsages : Ranking) :
    List wordUpdate → Option Ranking
  | [] => some mostCommonUsages
  | (songIndex, word, indices) :: rest =>
    match updateWord TopNSongsToReturn mostCommonUsages songIndex word indices with
    | none => none
    | some next => applyUpdates TopNSongsToReturn next rest

/-- The executions of the loop body caused by ingesting one song. -/
def updatesOfSong (songIndex : Int) (usageMap : PerSongUsageMap) : List wordUpdate :=
  usageMap.map (fun p => (songIndex, p.1, p.2))

/-- The executions of the loop body caused by ingesting a sequence of songs. -/
def updatesOf (songs : List (Int × PerSongUsageMap)) : List wordUpdate :=
  songs.flatMap (fun s => updatesOfSong s.1 s.2)

/-- The states reachable from the empty ranking by executions of the loop body; the
states between the per-word updates of one song are among them. -/
inductive Reachable (TopNSongsToReturn : Int) : Ranking → Prop
  | empty : Reachable TopNSongsToReturn emptyRanking
  | step (r r2 : Ranking) (songIndex : Int) (word : String) (indices : List Int) :
      Reachable TopNSongsToReturn r →
      updateWord TopNSongsToReturn r songIndex word indices = some r2 →
      Reachable TopNSongsToReturn r2

/-- The entries offered for the word `w` by a sequence of updates, in order. -/
def offered (w : String) (ups : List wordUpdate) : List songUsage :=
  (ups.filter (fun u => decide (u.2.1 = w))).map (fun u => ⟨u.1, u.2.2⟩)

/-- The invariant of one word of the ranking with respect to the entries `A` offered for
it so far: an absent word has been offered nothing; a present one holds a non-empty,
bounded, non-increasing sequence which, together with the entries `rest` that were
turned away or evicted, is a rearrangement of `A`; no entry of `rest` has a larger
count than a retained one, and nothing is in `rest` while there is room. -/
def RankInv (topN : Int) (entry : Option (List songUsage)) (A : List songUsage) : Prop :=
  match entry with
  | none => A = []
  | some R =>
    R ≠ [] ∧ (R.length : Int) ≤ topN ∧ nonIncreasing R ∧
      ∃ rest, (R ++ rest).Perm A ∧ (∀ x ∈ R, ∀ y ∈ rest, y.count ≤ x.count) ∧
        ((R.length : Int) < topN → rest = [])

/-- The occurrence count of `w` in a song, read off its usage map; `0` when the song
has no entry for `w`. -/
def usageCount (usageMap : PerSongUsageMap) (w : String) : Nat :=
  ((usageLookup usageMap w).getD []).length

/-- A usage map as the indexer builds it: the keys are pairwise distinct (it is a Go map)
and every position list is non-empty. -/
def WellFormedUsage (usageMap : PerSongUsageMap) : Prop :=
  (usageMap.map Prod.fst).Nodup ∧ ∀ p ∈ usageMap, p.2 ≠ []

/-- The songs that `main` ingests: the `k`-th song of the corpus with index
`songIndex + k` and the usage map the indexer builds for it. -/
def corpusFrom (songIndex : Int) : List song → List (Int × PerSongUsageMap)
  | [] => []
  | s :: rest => (songIndex, indexSong s.lyrics) :: corpusFrom (songIndex + 1) rest

/-- Specification of the indexer: all positions `i` in `[0, len(lyrics)-1]` whose token
normalizes to `w`, in ascending order. -/
def positionsOf (lyrics : List String) (w : String) : List Int :=
  ((List.range lyrics.length).filter
    (fun i => decide ((lyrics[i]?).map normalizeWord = some w))).map Int.ofNat

/-- The positions of `w` among the remaining tokens, the first of which has index `k`. -/
def positionsFrom (w : String) (k : Int) : List String → List Int
  | [] => []
  | t :: rest =>
    if normalizeWord t = w then k :: positionsFrom w (k + 1) rest
    else positionsFrom w (k + 1) rest

/-- The words `lyrics[a..b]`, both ends included. -/
def lyricsSlice (lyrics : List String) (a b : Int) : List String :=
  (lyrics.drop a.toNat).take (b - a + 1).toNat

/-- The words in order, each followed by exactly one space. -/
def joinWords (words : List String) : String :=
  words.foldl (fun buf word => buf ++ word ++ " ") ""

/-- The slice that the loop body of lines 166-198 leaves under the word, as a function of
the slice `old` found there and the new entry `s`; `none` is the panic. -/
def nextEntry (topN : Int) (old : Option (List songUsage)) (s : songUsage) :
    Option (List songUsage) :=
  match old with
  | some g =>
    if (g.length : Int) < topN then some (bubbleSortSongUsages (g ++ [s]))
    else
      match goIndex g (topN - 1) with
      | none => none
      | some nth =>
        if nth.positions.length < s.positions.length then
          some (bubbleSortSongUsages (g.set (topN - 1).toNat s))
        else some g
  | none => some [s]

/-- The order of the ranking with ties broken by song index: `a` ranks before `b` when
`a` has the larger count, or the same count and the smaller song index. -/
def rankedBefore (a b : songUsage) : Prop :=
  b.count < a.count ∨ (b.count = a.count ∧ a.songIndex < b.songIndex)

/-- Scenario 1 of the specification: one song with four words. -/
def loveSongs : List song := [⟨"artist", "title", ["love", "is", "love", "love"]⟩]

/-- A song whose only token is capitalized. -/
def capitalSongs : List song := [⟨"artist", "title", ["Love"]⟩]

/-- Scenario 2 of the specification: song 0 uses "fire" five times, song 1 three times. -/
def fireA : Int × PerSongUsageMap := (0, indexSong ["fire", "fire", "fire", "fire", "fire"])

/-- The second song of scenario 2. -/
def fireB : Int × PerSongUsageMap := (1, indexSong ["fire", "fire", "fire"])

/-- Scenario 5 of the specification: four songs using "sun" 2, 5, 1 and 5 times. -/
def sunSongs : List (Int × PerSongUsageMap) :=
  [(0, indexSong ["sun", "sun"]),
   (1, indexSong ["sun", "sun", "sun", "sun", "sun"]),
   (2, indexSong ["sun"]),
   (3, indexSong ["sun", "sun", "sun", "sun", "sun"])]

/-- The ranking after song 0 of scenario 2 with `topN = 1`. -/
def fireRanking : Ranking := mapAssign emptyRanking "fire" [⟨0, [0, 1, 2, 3, 4]⟩]

/-- The ranking after two songs using "sun" twice and five times, with `topN = 3`. -/
def sunRanking : Ranking :=
  mapAssign (mapAssign emptyRanking "sun" [⟨0, [0, 1]⟩]) "sun"
    [⟨1, [0, 1, 2, 3, 4]⟩, ⟨0, [0, 1]⟩]

/-! ## Reordering: what one pass of `bubbleSortSongUsages` does -/

theorem bubbleLoop_spec (x : songUsage) (a : List songUsage) :
    ∀ b : List songUsage, bubbleLoop (a ++ x :: b) a.length =
      a.rdropWhile (fun y => decide (y.count < x.count)) ++
        x :: (a.rtakeWhile (fun y => decide (y.count < x.count)) ++ b) := by
  induction a using List.reverseRecOn with
  | nil => intro b; simp [bubbleLoop]
  | append_singleton a y ih =>
    intro b
    have h1 : (a ++ [y] ++ x :: b)[a.length + 1]? = some x := by
      rw [List.append_assoc, List.getElem?_append_right (by omega)]
      simp
    have h2 : (a ++ [y] ++ x :: b)[a.length]? = some y := by
      rw [List.append_assoc, List.getElem?_append_right (by omega)]
      simp
    rw [List.length_append, List.length_singleton, bubbleLoop, h1, h2]
    simp only []
    by_cases h : y.count < x.count
    · have h3 : x.positions.length > y.positions.length := h
      rw [if_pos h3]
      have h4 : ((a ++ [y] ++ x :: b).set (a.length + 1) y).set a.length x
          = a ++ x :: (y :: b) := by
        simp [List.set_append]
      rw [h4, ih (y :: b), List.rdropWhile_concat_pos _ _ _ (by simpa using h),
        List.rtakeWhile_concat_pos _ _ _ (by simpa using h)]
      simp
    · have h3 : ¬ x.positions.length > y.positions.length := h
      rw [if_neg h3, List.rdropWhile_concat_neg _ _ _ (by simpa using h),
        List.rtakeWhile_concat_neg _ _ _ (by simpa using h)]
      simp

theorem bubbleSort_concat (a : List songUsage) (x : songUsage) :
    bubbleSortSongUsages (a ++ [x]) =
      a.rdropWhile (fun y => decide (y.count < x.count)) ++
        x :: a.rtakeWhile (fun y => decide (y.count < x.count)) := by
  have h := bubbleLoop_spec x a []
  simp only [List.append_nil] at h
  rw [bubbleSortSongUsages, List.length_append, List.length_singleton, Nat.add_sub_cancel, h]

theorem rdropWhile_append_rtakeWhile {α : Type} (p : α → Bool) (l : List α) :
    l.rdropWhile p ++ l.rtakeWhile p = l := by
  have h := List.takeWhile_append_dropWhile p l.reverse
  have h2 := congrArg List.reverse h
  rw [List.reverse_append, List.reverse_reverse] at h2
  exact h2

theorem bubble_facts (a : List songUsage) (x : songUsage) :
    ∃ D T, a = D ++ T ∧ bubbleSortSongUsages (a ++ [x]) = D ++ x :: T ∧
      (∀ t ∈ T, t.count < x.count) ∧ (∀ d, D.getLast? = some d → x.count ≤ d.count) := by
  refine ⟨a.rdropWhile (fun y => decide (y.count < x.count)),
    a.rtakeWhile (fun y => decide (y.count < x.count)),
    (rdropWhile_append_rtakeWhile _ a).symm, bubbleSort_concat a x, ?_, ?_⟩
  · intro t ht
    simpa using List.mem_rtakeWhile_imp ht
  · intro d hd
    have hne : a.rdropWhile (fun y => decide (y.count < x.count)) ≠ [] := by
      intro h0; rw [h0] at hd; simp at hd
    have h := List.rdropWhile_last_not (fun y => decide (y.count < x.count)) a hne
    rw [List.getLast?_eq_getLast _ hne] at hd
    simp only [Option.some.injEq] at hd
    rw [hd] at h
    simpa using h

theorem bubble_perm (a : List songUsage) (x : songUsage) :
    (bubbleSortSongUsages (a ++ [x])).Perm (a ++ [x]) := by
  obtain ⟨D, T, ha, hb, -, -⟩ := bubble_facts a x
  rw [hb, ha]
  simp only [List.append_assoc]
  exact List.Perm.append_left D (List.perm_append_singleton x T).symm

theorem bubble_nonIncreasing (a : List songUsage) (x : songUsage) (h : nonIncreasing a) :
    nonIncreasing (bubbleSortSongUsages (a ++ [x])) := by
  obtain ⟨D, T, ha, hb, hT, hD⟩ := bubble_facts a x
  rw [hb]
  subst ha
  unfold nonIncreasing at h ⊢
  rw [List.pairwise_append] at h ⊢
  obtain ⟨h1, h2, h3⟩ := h
  have hDx : ∀ d ∈ D, x.count ≤ d.count := by
    intro d hd
    rcases List.eq_nil_or_concat D with h0 | ⟨D0, dl, h0⟩
    · subst h0; simp at hd
    · rw [List.concat_eq_append] at h0
      subst h0
      have hl := hD dl (by simp)
      rw [List.pairwise_append] at h1
      rcases List.mem_append.1 hd with hd | hd
      · exact le_trans hl (h1.2.2 d hd dl (by simp))
      · simp at hd; subst hd; exact hl
  refine ⟨h1, ?_, ?_⟩
  · rw [List.pairwise_cons]
    exact ⟨fun t ht => Nat.le_of_lt (hT t ht), h2⟩
  · intro d hd y hy
    rcases List.mem_cons.1 hy with hy | hy
    · subst hy; exact hDx d hd
    · exact h3 d hd y hy

/-! ## The per-word update and its invariant -/

theorem mapAssign_same (r : Ranking) (w : String) (g : List songUsage) :
    mapAssign r w g w = some g := by simp [mapAssign]

theorem mapAssign_other (r : Ranking) (w k : String) (g : List songUsage) (h : k ≠ w) :
    mapAssign r w g k = r k := by simp [mapAssign, h]

theorem updateWord_absent (topN : Int) (r : Ranking) (si : Int) (w : String) (idx : List Int)
    (h : r w = none) : updateWord topN r si w idx = some (mapAssign r w [⟨si, idx⟩]) := by
  simp [updateWord, h]

theorem updateWord_room (topN : Int) (r : Ranking) (si : Int) (w : String) (idx : List Int)
    (g : List songUsage) (h : r w = some g) (hlen : (g.length : Int) < topN) :
    updateWord topN r si w idx =
      some (mapAssign r w (bubbleSortSongUsages (g ++ [⟨si, idx⟩]))) := by
  simp [updateWord, h, hlen]

theorem updateWord_full (topN : Int) (r : Ranking) (si : Int) (w : String) (idx : List Int)
    (init : List songUsage) (m : songUsage) (h : r w = some (init ++ [m]))
    (hlen : ((init ++ [m]).length : Int) = topN) :
    updateWord topN r si w idx =
      if m.count < idx.length then
        some (mapAssign r w (bubbleSortSongUsages (init ++ [⟨si, idx⟩])))
      else some r := by
  have h1 : ¬ (((init ++ [m]).length : Int) < topN) := by omega
  have h2 : topN - 1 = (init.length : Int) := by
    rw [← hlen]; simp
  have h3 : goIndex (init ++ [m]) (topN - 1) = some m := by
    rw [h2]; simp [goIndex]
  have h4 : (init ++ [m]).set (topN - 1).toNat ⟨si, idx⟩ = init ++ [⟨si, idx⟩] := by
    rw [h2]; simp [List.set_append]
  simp only [updateWord, h, h1, if_false, h3, h4, songUsage.count]

theorem updateWord_frame (topN : Int) (r r2 : Ranking) (si : Int) (w : String)
    (idx : List Int) (h : updateWord topN r si w idx = some r2) (k : String) (hk : k ≠ w) :
    r2 k = r k := by
  unfold updateWord at h
  split at h
  · split at h
    · simp only [Option.some.injEq] at h; rw [← h, mapAssign_other _ _ _ _ hk]
    · split at h
      · exact absurd h (by simp)
      · split at h
        · simp only [Option.some.injEq] at h; rw [← h, mapAssign_other _ _ _ _ hk]
        · simp only [Option.some.injEq] at h; rw [← h]
  · simp only [Option.some.injEq] at h; rw [← h, mapAssign_other _ _ _ _ hk]

theorem rankInv_step (topN : Int) (htop : 1 ≤ topN) (r : Ranking) (si : Int) (w : String)
    (idx : List Int) (A : List songUsage) (hinv : RankInv topN (r w) A) :
    ∃ r2, updateWord topN r si w idx = some r2 ∧ RankInv topN (r2 w) (A ++ [⟨si, idx⟩]) := by
  cases hrw : r w with
  | none =>
    rw [hrw] at hinv
    simp only [RankInv] at hinv
    refine ⟨_, updateWord_absent topN r si w idx hrw, ?_⟩
    rw [mapAssign_same]
    subst hinv
    refine ⟨by simp, by simpa using htop, by simp [nonIncreasing], [], by simp, by simp, by simp⟩
  | some R =>
    rw [hrw] at hinv
    obtain ⟨hne, hlen, hsorted, rest, hperm, hbound, hrest⟩ := hinv
    by_cases hroom : (R.length : Int) < topN
    · refine ⟨_, updateWord_room topN r si w idx R hrw hroom, ?_⟩
      rw [mapAssign_same]
      have hr := hrest hroom
      subst hr
      have hp := bubble_perm R ⟨si, idx⟩
      refine ⟨?_, ?_, bubble_nonIncreasing R _ hsorted, [], ?_, by simp, by simp⟩
      · intro h0; rw [h0] at hp; simpa using hp.length_eq
      · have := hp.length_eq; simp at this; omega
      · simp only [List.append_nil] at hperm ⊢
        exact hp.trans (List.Perm.append_right _ hperm)
    · have hfull : (R.length : Int) = topN := by omega
      rcases List.eq_nil_or_concat R with h0 | ⟨init, m, h0⟩
      · exact absurd h0 hne
      · rw [List.concat_eq_append] at h0
        subst h0
        rw [updateWord_full topN r si w idx init m hrw hfull]
        have hsorted2 := hsorted
        unfold nonIncreasing at hsorted2
        rw [List.pairwise_append] at hsorted2
        obtain ⟨hs1, -, hs3⟩ := hsorted2
        have hm : ∀ x ∈ init ++ [m], m.count ≤ x.count := by
          intro x hx
          rcases List.mem_append.1 hx with hx | hx
          · exact hs3 x hx m (by simp)
          · simp at hx; subst hx; exact le_refl _
        by_cases hadm : m.count < idx.length
        · rw [if_pos hadm]
          refine ⟨_, rfl, ?_⟩
          rw [mapAssign_same]
          have hp := bubble_perm init ⟨si, idx⟩
          refine ⟨?_, ?_, bubble_nonIncreasing init _ hs1, m :: rest, ?_, ?_, ?_⟩
          · intro h0; rw [h0] at hp; simpa using hp.length_eq
          · have := hp.length_eq; simp at this hfull; omega
          · have h1 : (bubbleSortSongUsages (init ++ [⟨si, idx⟩]) ++ m :: rest).Perm
                ((init ++ [⟨si, idx⟩]) ++ m :: rest) := List.Perm.append_right _ hp
            refine h1.trans ?_
            have h2 : ((init ++ [m]) ++ rest ++ [(⟨si, idx⟩ : songUsage)]).Perm
                (A ++ [(⟨si, idx⟩ : songUsage)]) :=
              List.Perm.append_right _ hperm
            refine List.Perm.trans ?_ h2
            simp only [List.append_assoc, List.singleton_append]
            refine List.Perm.append_left init ?_
            refine (List.Perm.swap _ _ _).trans (List.Perm.cons m ?_)
            exact (List.perm_append_singleton _ rest).symm
          · intro x hx y hy
            have hx2 := hp.subset hx
            have hxm : m.count ≤ x.count := by
              rcases List.mem_append.1 hx2 with hx3 | hx3
              · exact hm x (List.mem_append_left _ hx3)
              · simp at hx3; subst hx3; exact Nat.le_of_lt hadm
            rcases List.mem_cons.1 hy with hy | hy
            · subst hy; exact hxm
            · exact le_trans (hbound m (by simp) y hy) hxm
          · intro hlt
            have := hp.length_eq
            simp at this hfull
            omega
        · rw [if_neg hadm]
          refine ⟨_, rfl, ?_⟩
          rw [hrw]
          refine ⟨hne, hlen, hsorted, rest ++ [⟨si, idx⟩], ?_, ?_, ?_⟩
          · rw [← List.append_assoc]
            exact List.Perm.append_right _ hperm
          · intro x hx y hy
            rcases List.mem_append.1 hy with hy | hy
            · exact hbound x hx y hy
            · simp at hy; subst hy
              exact le_trans (Nat.le_of_not_lt hadm) (hm x hx)
          · intro hlt; exact absurd hlt hroom

/-! ## The invariant along a sequence of updates -/

theorem offered_cons (w : String) (u : wordUpdate) (ups : List wordUpdate) :
    offered w (u :: ups) = offered w [u] ++ offered w ups := by
  simp only [offered, List.filter_cons, List.filter_nil]
  split <;> simp

theorem offered_append (w : String) (a b : List wordUpdate) :
    offered w (a ++ b) = offered w a ++ offered w b := by
  simp [offered]

theorem offered_single_same (si : Int) (w : String) (idx : List Int) :
    offered w [(si, w, idx)] = [⟨si, idx⟩] := by
  simp [offered]

theorem offered_single_other (si : Int) (w k : String) (idx : List Int) (h : k ≠ w) :
    offered k [(si, w, idx)] = [] := by
  simp [offered, h.symm]

theorem rankInv_applyUpdates (topN : Int) (htop : 1 ≤ topN) (ups : List wordUpdate) :
    ∀ (r : Ranking) (A : String → List songUsage), (∀ w, RankInv topN (r w) (A w)) →
      ∃ r2, applyUpdates topN r ups = some r2 ∧
        ∀ w, RankInv topN (r2 w) (A w ++ offered w ups) := by
  induction ups with
  | nil =>
    intro r A h
    exact ⟨r, rfl, fun w => by simpa [offered] using h w⟩
  | cons u rest ih =>
    intro r A h
    obtain ⟨si, w0, idx⟩ := u
    obtain ⟨r1, hr1, hinv1⟩ := rankInv_step topN htop r si w0 idx (A w0) (h w0)
    have hall : ∀ w, RankInv topN (r1 w) (A w ++ offered w [(si, w0, idx)]) := by
      intro w
      by_cases hw : w = w0
      · subst hw; rw [offered_single_same]; exact hinv1
      · rw [offered_single_other si w0 w idx hw, List.append_nil,
          updateWord_frame topN r r1 si w0 idx hr1 w hw]
        exact h w
    obtain ⟨r2, hr2, hinv2⟩ := ih r1 (fun w => A w ++ offered w [(si, w0, idx)]) hall
    refine ⟨r2, ?_, ?_⟩
    · simp only [applyUpdates, hr1]; exact hr2
    · intro w
      rw [offered_cons, ← List.append_assoc]
      exact hinv2 w

theorem applyUpdates_append (topN : Int) (a b : List wordUpdate) :
    ∀ r : Ranking, applyUpdates topN r (a ++ b) =
      (applyUpdates topN r a).bind (fun r1 => applyUpdates topN r1 b) := by
  induction a with
  | nil => intro r; rfl
  | cons u rest ih =>
    intro r
    obtain ⟨si, w0, idx⟩ := u
    simp only [List.cons_append, applyUpdates]
    cases updateWord topN r si w0 idx with
    | none => rfl
    | some r1 => exact ih r1

theorem ingest_eq_applyUpdates (topN : Int) (si : Int) (u : PerSongUsageMap) :
    ∀ r : Ranking, ingest topN r si u = applyUpdates topN r (updatesOfSong si u) := by
  induction u with
  | nil => intro r; rfl
  | cons p rest ih =>
    intro r
    obtain ⟨w, idx⟩ := p
    simp only [ingest, updatesOfSong, List.map_cons, applyUpdates]
    cases updateWord topN r si w idx with
    | none => rfl
    | some r1 => exact ih r1

theorem ingestSongs_eq_applyUpdates (topN : Int) (songs : List (Int × PerSongUsageMap)) :
    ∀ r : Ranking, ingestSongs topN r songs = applyUpdates topN r (updatesOf songs) := by
  induction songs with
  | nil => intro r; rfl
  | cons s rest ih =>
    intro r
    obtain ⟨si, u⟩ := s
    simp only [ingestSongs, updatesOf, List.flatMap_cons, applyUpdates_append,
      ingest_eq_applyUpdates]
    cases applyUpdates topN r (updatesOfSong si u) with
    | none => rfl
    | some r1 => exact ih r1

theorem rankInv_empty (topN : Int) (w : String) : RankInv topN (emptyRanking w) [] := by
  simp [RankInv, emptyRanking]

theorem rankInv_from_empty (topN : Int) (htop : 1 ≤ topN) (ups : List wordUpdate) :
    ∃ r, applyUpdates topN emptyRanking ups = some r ∧
      ∀ w, RankInv topN (r w) (offered w ups) := by
  obtain ⟨r, hr, h⟩ := rankInv_applyUpdates topN htop ups emptyRanking (fun _ => [])
    (fun w => rankInv_empty topN w)
  exact ⟨r, hr, fun w => by simpa using h w⟩

/-! ## Offered entries of well-formed usage maps -/

theorem usageLookup_eq_none (u : PerSongUsageMap) (w : String)
    (h : w ∉ u.map Prod.fst) : usageLookup u w = none := by
  induction u with
  | nil => rfl
  | cons p rest ih =>
    obtain ⟨k, v⟩ := p
    simp only [List.map_cons, List.mem_cons, not_or] at h
    simp only [usageLookup]
    rw [if_neg (fun hk => h.1 hk.symm)]
    exact ih h.2

theorem usageLookup_mem (u : PerSongUsageMap) (w : String) (pos : List Int)
    (h : usageLookup u w = some pos) : (w, pos) ∈ u := by
  induction u with
  | nil => simp [usageLookup] at h
  | cons p rest ih =>
    obtain ⟨k, v⟩ := p
    simp only [usageLookup] at h
    split at h
    · rename_i hk
      simp only [Option.some.injEq] at h
      subst hk; subst h; simp
    · exact List.mem_cons_of_mem _ (ih h)

theorem offered_updatesOfSong (si : Int) (w : String) (u : PerSongUsageMap)
    (hnd : (u.map Prod.fst).Nodup) :
    offered w (updatesOfSong si u) =
      ((usageLookup u w).map (fun pos => (⟨si, pos⟩ : songUsage))).toList := by
  induction u with
  | nil => rfl
  | cons p rest ih =>
    obtain ⟨k, v⟩ := p
    simp only [List.map_cons, List.nodup_cons] at hnd
    have hcons : updatesOfSong si ((k, v) :: rest) = (si, k, v) :: updatesOfSong si rest := rfl
    rw [hcons, offered_cons, ih hnd.2]
    simp only [usageLookup]
    by_cases hk : k = w
    · subst hk
      rw [offered_single_same, if_pos rfl, usageLookup_eq_none rest k hnd.1]
      rfl
    · rw [offered_single_other si k w v (fun h => hk h.symm), if_neg hk]
      rfl

theorem updatesOf_cons (s : Int × PerSongUsageMap) (songs : List (Int × PerSongUsageMap)) :
    updatesOf (s :: songs) = updatesOfSong s.1 s.2 ++ updatesOf songs := by
  simp [updatesOf]

theorem offered_updatesOf (w : String) (songs : List (Int × PerSongUsageMap))
    (hnd : ∀ s ∈ songs, (s.2.map Prod.fst).Nodup) :
    offered w (updatesOf songs) =
      songs.filterMap (fun s => (usageLookup s.2 w).map (fun pos => (⟨s.1, pos⟩ : songUsage))) := by
  induction songs with
  | nil => rfl
  | cons s rest ih =>
    rw [updatesOf_cons, offered_append, ih (fun t ht => hnd t (List.mem_cons_of_mem _ ht)),
      offered_updatesOfSong s.1 w s.2 (hnd s (List.mem_cons_self _ _)), List.filterMap_cons]
    cases usageLookup s.2 w <;> rfl

theorem offered_counts (w : String) (songs : List (Int × PerSongUsageMap))
    (hwf : ∀ s ∈ songs, WellFormedUsage s.2) :
    (offered w (updatesOf songs)).map songUsage.count =
      (songs.map (fun s => usageCount s.2 w)).filter (fun c => decide (c ≠ 0)) := by
  rw [offered_updatesOf w songs (fun s hs => (hwf s hs).1)]
  induction songs with
  | nil => rfl
  | cons s rest ih =>
    have ih2 := ih (fun t ht => hwf t (List.mem_cons_of_mem _ ht))
    rw [List.filterMap_cons, List.map_cons, List.filter_cons]
    cases hl : usageLookup s.2 w with
    | none =>
      simp only [Option.map_none', usageCount, hl]
      simpa using ih2
    | some pos =>
      have hne : pos ≠ [] := (hwf s (List.mem_cons_self _ _)).2 _ (usageLookup_mem _ _ _ hl)
      have hlen : pos.length ≠ 0 := fun h => hne (List.length_eq_zero.1 h)
      simp only [Option.map_some', usageCount, hl, Option.getD_some, List.map_cons,
        songUsage.count]
      rw [if_pos (by simpa using hlen), ih2]
      rfl

theorem counts_of_rankInv (topN : Int) (e : Option (List songUsage)) (A : List songUsage)
    (h : RankInv topN e A) :
    (e.getD []).map songUsage.count =
      ((A.map songUsage.count).insertionSort (fun a b => b ≤ a)).take topN.toNat := by
  cases e with
  | none =>
    simp only [RankInv] at h
    subst h
    simp
  | some R =>
    obtain ⟨-, hlen, hsorted, rest, hperm, hbound, hrest⟩ := h
    simp only [Option.getD_some]
    have hX := List.perm_insertionSort (fun a b : Nat => b ≤ a) (rest.map songUsage.count)
    have hsX := List.sorted_insertionSort (fun a b : Nat => b ≤ a) (rest.map songUsage.count)
    have hL : (R.map songUsage.count ++
        (rest.map songUsage.count).insertionSort (fun a b => b ≤ a)).Sorted
          (fun a b : Nat => b ≤ a) := by
      unfold List.Sorted
      rw [List.pairwise_append]
      refine ⟨?_, hsX, ?_⟩
      · unfold nonIncreasing at hsorted
        exact List.pairwise_map.2 hsorted
      · intro a ha b hb
        have hb2 := hX.subset hb
        obtain ⟨x, hx, rfl⟩ := List.mem_map.1 ha
        obtain ⟨y, hy, rfl⟩ := List.mem_map.1 hb2
        exact hbound x hx y hy
    have hP : (R.map songUsage.count ++
        (rest.map songUsage.count).insertionSort (fun a b => b ≤ a)).Perm
          ((A.map songUsage.count).insertionSort (fun a b => b ≤ a)) := by
      refine List.Perm.trans ?_ (List.perm_insertionSort _ _).symm
      refine List.Perm.trans (List.Perm.append_left _ hX) ?_
      rw [← List.map_append]
      exact hperm.map _
    have hEq := List.eq_of_perm_of_sorted hP hL (List.sorted_insertionSort _ _)
    rw [← hEq]
    by_cases hroom : (R.length : Int) < topN
    · rw [hrest hroom]
      simp only [List.map_nil, List.insertionSort, List.append_nil]
      rw [List.take_of_length_le]
      simp; omega
    · have hfull : R.length = topN.toNat := by omega
      rw [List.take_append_of_le_length (by simp; omega), List.take_of_length_le]
      simp; omega

/-! ## Reachable states: boundedness, sortedness, admission -/

theorem applyUpdates_snoc (topN : Int) (r r2 : Ranking) (ups : List wordUpdate) (si : Int)
    (w : String) (idx : List Int) (h : applyUpdates topN r ups = some r2) :
    applyUpdates topN r (ups ++ [(si, w, idx)]) = updateWord topN r2 si w idx := by
  rw [applyUpdates_append, h]
  simp only [Option.some_bind, applyUpdates]
  cases updateWord topN r2 si w idx <;> rfl

theorem reachable_history (topN : Int) (r : Ranking) (h : Reachable topN r) :
    ∃ ups, applyUpdates topN emptyRanking ups = some r := by
  induction h with
  | empty => exact ⟨[], rfl⟩
  | step r r2 si w idx _ hstep ih =>
    obtain ⟨ups, hups⟩ := ih
    exact ⟨ups ++ [(si, w, idx)], by rw [applyUpdates_snoc topN _ _ ups si w idx hups, hstep]⟩

theorem reachable_of_applyUpdates (topN : Int) (ups : List wordUpdate) :
    ∀ (r r2 : Ranking), Reachable topN r → applyUpdates topN r ups = some r2 →
      Reachable topN r2 := by
  induction ups with
  | nil =>
    intro r r2 hr h
    simp only [applyUpdates, Option.some.injEq] at h
    rw [← h]; exact hr
  | cons u rest ih =>
    intro r r2 hr h
    obtain ⟨si, w, idx⟩ := u
    simp only [applyUpdates] at h
    cases hu : updateWord topN r si w idx with
    | none => rw [hu] at h; exact absurd h (by simp)
    | some r1 =>
      rw [hu] at h
      exact ih r1 r2 (Reachable.step r r1 si w idx hr hu) h

theorem reachable_rankInv (topN : Int) (htop : 1 ≤ topN) (r : Ranking)
    (h : Reachable topN r) : ∃ ups, ∀ w, RankInv topN (r w) (offered w ups) := by
  obtain ⟨ups, hups⟩ := reachable_history topN r h
  obtain ⟨r2, hr2, hinv⟩ := rankInv_from_empty topN htop ups
  rw [hups] at hr2
  simp only [Option.some.injEq] at hr2
  subst hr2
  exact ⟨ups, hinv⟩

theorem rankInv_length (topN : Int) (htop : 1 ≤ topN) (e : Option (List songUsage))
    (A : List songUsage) (h : RankInv topN e A) : ((e.getD []).length : Int) ≤ topN := by
  cases e with
  | none => simp; omega
  | some R => exact h.2.1

theorem rankInv_sorted (topN : Int) (e : Option (List songUsage))
    (A : List songUsage) (h : RankInv topN e A) : nonIncreasing (e.getD []) := by
  cases e with
  | none => simp [nonIncreasing]
  | some R => exact h.2.2.1

/-- C2 (boundedness). For every `topN ≥ 1`, in every state reachable from the empty
ranking by executions of the per-word loop body (so also between the per-word updates
of one song) and for every word `w`, the retained sequence has at most `topN` entries. -/
theorem boundedness (topN : Int) (htop : 1 ≤ topN) (r : Ranking) (hr : Reachable topN r)
    (w : String) : ((retained r w).length : Int) ≤ topN := by
  obtain ⟨ups, hinv⟩ := reachable_rankInv topN htop r hr
  exact rankInv_length topN htop _ _ (hinv w)

/-- C3 (sortedness). For every `topN ≥ 1`, in every state reachable from the empty
ranking and for every word `w`, the retained sequence is non-increasing by occurrence
count. -/
theorem sortedness (topN : Int) (htop : 1 ≤ topN) (r : Ranking) (hr : Reachable topN r)
    (w : String) : nonIncreasing (retained r w) := by
  obtain ⟨ups, hinv⟩ := reachable_rankInv topN htop r hr
  exact rankInv_sorted topN _ _ (hinv w)

/-- C4 (monotone admission). In a reachable state in which the retained sequence `g` of
`w` has `topN` entries, the last entry `m` of `g` has the minimum retained count; the
update for a pair `(w, idx)` returns a ranking `r2`; if `len(idx)` is strictly greater
than the count of `m`, the new retained sequence is a rearrangement of the new entry
together with `g` without its last entry, and is again non-increasing; otherwise the
ranking is unchanged. For a song not yet retained under `w`, the new entry is retained
afterwards if and only if `len(idx)` is strictly greater than that minimum. -/
theorem monotone_admission (topN : Int) (htop : 1 ≤ topN) (r : Ranking)
    (hr : Reachable topN r) (w : String) (g : List songUsage) (hg : r w = some g)
    (hfull : (g.length : Int) = topN) (si : Int) (idx : List Int) :
    ∃ m r2, g.getLast? = some m ∧ (∀ x ∈ g, m.count ≤ x.count) ∧
      updateWord topN r si w idx = some r2 ∧
      (m.count < idx.length →
        (retained r2 w).Perm (⟨si, idx⟩ :: g.dropLast) ∧ nonIncreasing (retained r2 w)) ∧
      (¬ m.count < idx.length → r2 = r) ∧
      (si ∉ g.map songUsage.songIndex →
        ((⟨si, idx⟩ : songUsage) ∈ retained r2 w ↔ m.count < idx.length)) := by
  obtain ⟨ups, hinv⟩ := reachable_rankInv topN htop r hr
  have hw := hinv w
  rw [hg] at hw
  obtain ⟨hne, -, hsorted, -⟩ := hw
  rcases List.eq_nil_or_concat g with h0 | ⟨init, m, h0⟩
  · exact absurd h0 hne
  rw [List.concat_eq_append] at h0
  subst h0
  have hm : ∀ x ∈ init ++ [m], m.count ≤ x.count := by
    unfold nonIncreasing at hsorted
    rw [List.pairwise_append] at hsorted
    intro x hx
    rcases List.mem_append.1 hx with hx | hx
    · exact hsorted.2.2 x hx m (by simp)
    · simp at hx; subst hx; exact le_refl _
  have hs1 : nonIncreasing init := by
    unfold nonIncreasing at hsorted ⊢
    rw [List.pairwise_append] at hsorted
    exact hsorted.1
  have hupd := updateWord_full topN r si w idx init m hg hfull
  by_cases hadm : m.count < idx.length
  · rw [if_pos hadm] at hupd
    have hret : retained (mapAssign r w (bubbleSortSongUsages (init ++ [⟨si, idx⟩]))) w
        = bubbleSortSongUsages (init ++ [⟨si, idx⟩]) := by
      simp [retained, mapAssign_same]
    have hp : (bubbleSortSongUsages (init ++ [(⟨si, idx⟩ : songUsage)])).Perm
        (⟨si, idx⟩ :: init) :=
      (bubble_perm init ⟨si, idx⟩).trans (List.perm_append_singleton _ _)
    refine ⟨m, _, by simp, hm, hupd, ?_, fun h => absurd hadm h, ?_⟩
    · intro _
      rw [hret, List.dropLast_concat]
      exact ⟨hp, bubble_nonIncreasing init _ hs1⟩
    · intro _
      rw [hret]
      exact ⟨fun _ => hadm, fun _ => hp.symm.subset (List.mem_cons_self _ _)⟩
  · rw [if_neg hadm] at hupd
    refine ⟨m, r, by simp, hm, hupd, fun h => absurd h hadm, fun _ => rfl, ?_⟩
    intro hnew
    constructor
    · intro hmem
      exfalso
      apply hnew
      simp only [retained, hg, Option.getD_some] at hmem
      exact List.mem_map.2 ⟨_, hmem, rfl⟩
    · intro h; exact absurd h hadm

/-- Ingesting a song leads from reachable states to reachable states. -/
theorem reachable_ingest (topN : Int) (r r2 : Ranking) (si : Int) (u : PerSongUsageMap)
    (hr : Reachable topN r) (h : ingest topN r si u = some r2) : Reachable topN r2 := by
  rw [ingest_eq_applyUpdates] at h
  exact reachable_of_applyUpdates topN _ r r2 hr h

/-- Every ranking returned by the ingestion of a sequence of songs is reachable. -/
theorem reachable_ingestSongs (topN : Int) (r : Ranking)
    (songs : List (Int × PerSongUsageMap))
    (h : ingestSongs topN emptyRanking songs = some r) : Reachable topN r := by
  rw [ingestSongs_eq_applyUpdates] at h
  exact reachable_of_applyUpdates topN _ emptyRanking r Reachable.empty h

/-! ## Ingestion of a corpus: top-N correctness, uniqueness, order of ingestion -/

theorem ingestSongs_rankInv (topN : Int) (htop : 1 ≤ topN)
    (songs : List (Int × PerSongUsageMap)) :
    ∃ r, ingestSongs topN emptyRanking songs = some r ∧
      ∀ w, RankInv topN (r w) (offered w (updatesOf songs)) := by
  rw [ingestSongs_eq_applyUpdates]
  exact rankInv_from_empty topN htop (updatesOf songs)

theorem mem_offered_updatesOf (w : String) (songs : List (Int × PerSongUsageMap))
    (s : Int × PerSongUsageMap) (hs : s ∈ songs) (pos : List Int)
    (hl : usageLookup s.2 w = some pos) :
    (⟨s.1, pos⟩ : songUsage) ∈ offered w (updatesOf songs) := by
  have h1 : (s.1, w, pos) ∈ updatesOf songs := by
    simp only [updatesOf, List.mem_flatMap]
    refine ⟨s, hs, ?_⟩
    simp only [updatesOfSong, List.mem_map]
    exact ⟨(w, pos), usageLookup_mem _ _ _ hl, rfl⟩
  simp only [offered, List.mem_map, List.mem_filter]
  exact ⟨(s.1, w, pos), ⟨h1, by simp⟩, rfl⟩

theorem excluded_le_of_rankInv (topN : Int) (e : Option (List songUsage))
    (A : List songUsage) (h : RankInv topN e A) (y : songUsage) (hy : y ∈ A)
    (hex : y ∉ e.getD []) : ∀ x ∈ e.getD [], y.count ≤ x.count := by
  cases e with
  | none => intro x hx; simp at hx
  | some R =>
    obtain ⟨-, -, -, rest, hperm, hbound, -⟩ := h
    simp only [Option.getD_some] at hex ⊢
    intro x hx
    have hy2 := hperm.symm.subset hy
    rcases List.mem_append.1 hy2 with hy3 | hy3
    · exact absurd hy3 hex
    · exact hbound x hx y hy3

/-- C1 (top-N correctness of the aggregator). For every `topN ≥ 1` and every sequence of
songs, each given by its index and a well-formed usage map and ingested once in the
order of the list from the empty ranking, ingestion returns a ranking in which, for
every word `w`, the occurrence counts of the retained entries are the first `topN`
elements of the non-zero occurrence counts of `w` over all songs, sorted in
non-increasing order. Hence the retained sequence has `min topN n` entries, `n` being
the number of songs that contain `w`, and no song that is left out has a count greater
than that of a retained entry. (Distinctness of the song indices is not needed.) -/
theorem topN_correct (topN : Int) (htop : 1 ≤ topN) (songs : List (Int × PerSongUsageMap))
    (hwf : ∀ s ∈ songs, WellFormedUsage s.2) :
    ∃ r, ingestSongs topN emptyRanking songs = some r ∧ ∀ w,
      (retained r w).map songUsage.count =
        (((songs.map (fun s => usageCount s.2 w)).filter (fun c => decide (c ≠ 0))).insertionSort
          (fun a b => b ≤ a)).take topN.toNat ∧
      (retained r w).length =
        min topN.toNat (songs.filter (fun s => decide (usageCount s.2 w ≠ 0))).length ∧
      ∀ s ∈ songs, ∀ pos, usageLookup s.2 w = some pos →
        (⟨s.1, pos⟩ : songUsage) ∉ retained r w →
          ∀ x ∈ retained r w, pos.length ≤ x.count := by
  obtain ⟨r, hr, hinv⟩ := ingestSongs_rankInv topN htop songs
  refine ⟨r, hr, fun w => ?_⟩
  have hc := counts_of_rankInv topN (r w) _ (hinv w)
  rw [offered_counts w songs hwf] at hc
  refine ⟨hc, ?_, ?_⟩
  · have hl := congrArg List.length hc
    rw [List.length_map, List.length_take, List.length_insertionSort] at hl
    unfold retained
    rw [hl]
    congr 1
    rw [List.filter_map, List.length_map]
    rfl
  · intro s hs pos hl hex x hx
    exact excluded_le_of_rankInv topN (r w) _ (hinv w) ⟨s.1, pos⟩
      (mem_offered_updatesOf w songs s hs pos hl) hex x hx

theorem offered_sublist (w : String) (a b : List wordUpdate) (h : a.Sublist b) :
    (offered w a).Sublist (offered w b) := by
  unfold offered
  exact (h.filter _).map _

theorem offered_songIndex_sublist (w : String) (songs : List (Int × PerSongUsageMap))
    (hnd : ∀ s ∈ songs, (s.2.map Prod.fst).Nodup) :
    ((offered w (updatesOf songs)).map songUsage.songIndex).Sublist (songs.map Prod.fst) := by
  rw [offered_updatesOf w songs hnd]
  clear hnd
  induction songs with
  | nil => simp
  | cons s rest ih =>
    rw [List.filterMap_cons]
    cases usageLookup s.2 w with
    | none => exact List.Sublist.cons _ ih
    | some pos => exact List.Sublist.cons₂ _ ih

theorem rankInv_nodup (topN : Int) (e : Option (List songUsage)) (A : List songUsage)
    (h : RankInv topN e A) (hA : (A.map songUsage.songIndex).Nodup) :
    ((e.getD []).map songUsage.songIndex).Nodup := by
  cases e with
  | none => simp
  | some R =>
    obtain ⟨-, -, -, rest, hperm, -, -⟩ := h
    simp only [Option.getD_some]
    have h1 : ((R ++ rest).map songUsage.songIndex).Nodup :=
      ((hperm.map _).nodup_iff).2 hA
    rw [List.map_append] at h1
    exact (List.nodup_append.1 h1).1

/-- C5 (uniqueness). If the songs that are ingested have pairwise distinct indices (and
their usage maps pairwise distinct keys, as every Go map has), then after the
ingestion of all songs, and after any number `k` of per-word updates on the way, no song
index occurs twice in the retained sequence of any word. -/
theorem uniqueness (topN : Int) (htop : 1 ≤ topN) (songs : List (Int × PerSongUsageMap))
    (hidx : (songs.map Prod.fst).Nodup) (hkeys : ∀ s ∈ songs, (s.2.map Prod.fst).Nodup) :
    (∃ r, ingestSongs topN emptyRanking songs = some r ∧
      ∀ w, ((retained r w).map songUsage.songIndex).Nodup) ∧
    ∀ k : Nat, ∃ r, applyUpdates topN emptyRanking ((updatesOf songs).take k) = some r ∧
      ∀ w, ((retained r w).map songUsage.songIndex).Nodup := by
  have hmid : ∀ k : Nat, ∃ r,
      applyUpdates topN emptyRanking ((updatesOf songs).take k) = some r ∧
        ∀ w, ((retained r w).map songUsage.songIndex).Nodup := by
    intro k
    obtain ⟨r, hr, hinv⟩ := rankInv_from_empty topN htop ((updatesOf songs).take k)
    refine ⟨r, hr, fun w => rankInv_nodup topN (r w) _ (hinv w) ?_⟩
    have hsub := ((offered_sublist w _ _ (List.take_sublist k (updatesOf songs))).map
      songUsage.songIndex).trans (offered_songIndex_sublist w songs hkeys)
    exact hidx.sublist hsub
  refine ⟨?_, hmid⟩
  obtain ⟨r, hr, hnd⟩ := hmid (updatesOf songs).length
  rw [List.take_length] at hr
  exact ⟨r, by rw [ingestSongs_eq_applyUpdates]; exact hr, hnd⟩

theorem usageLookup_assign (m : PerSongUsageMap) (k : String) (v : List Int) (w : String) :
    usageLookup (usageAssign m k v) w = if k = w then some v else usageLookup m w := by
  induction m with
  | nil => simp [usageAssign, usageLookup]
  | cons p rest ih =>
    obtain ⟨k2, v2⟩ := p
    by_cases h : k2 = k <;> by_cases h2 : k2 = w <;> by_cases h3 : k = w <;>
      simp_all [usageAssign, usageLookup]

theorem usageAssign_keys (m : PerSongUsageMap) (k : String) (v : List Int) :
    (usageAssign m k v).map Prod.fst =
      if k ∈ m.map Prod.fst then m.map Prod.fst else m.map Prod.fst ++ [k] := by
  induction m with
  | nil => simp [usageAssign]
  | cons p rest ih =>
    obtain ⟨k2, v2⟩ := p
    simp only [usageAssign]
    by_cases h : k2 = k
    · subst h; simp
    · rw [if_neg h]
      simp only [List.map_cons, ih, List.mem_cons]
      have h3 : ¬ k = k2 := fun e => h e.symm
      by_cases h2 : k ∈ rest.map Prod.fst
      · simp [h2]
      · simp only [h2, if_false, h3, or_self, List.cons_append]

theorem usageAssign_wellFormed (m : PerSongUsageMap) (k : String) (v : List Int)
    (hm : WellFormedUsage m) (hv : v ≠ []) : WellFormedUsage (usageAssign m k v) := by
  constructor
  · rw [usageAssign_keys]
    split
    · exact hm.1
    · rename_i h
      exact List.nodup_append.2 ⟨hm.1, by simp, by
        intro a ha hb
        simp at hb
        subst hb
        exact h ha⟩
  · intro p hp
    obtain ⟨hnd, hne⟩ := hm
    clear hnd
    induction m with
    | nil =>
      simp [usageAssign] at hp
      subst hp; exact hv
    | cons q rest ih =>
      obtain ⟨k2, v2⟩ := q
      simp only [usageAssign] at hp
      split at hp
      · rcases List.mem_cons.1 hp with h | h
        · subst h; exact hv
        · exact hne p (List.mem_cons_of_mem _ h)
      · rcases List.mem_cons.1 hp with h | h
        · subst h; exact hne _ (List.mem_cons_self _ _)
        · exact ih h (fun q hq => hne q (List.mem_cons_of_mem _ hq))

theorem indexLoop_wellFormed (rest : List String) :
    ∀ (m : PerSongUsageMap) (k : Int), WellFormedUsage m →
      WellFormedUsage (indexLoop m k rest) := by
  induction rest with
  | nil => intro m k h; exact h
  | cons t rest ih =>
    intro m k h
    simp only [indexLoop]
    split
    · exact ih _ _ (usageAssign_wellFormed m _ _ h (by simp))
    · exact ih _ _ (usageAssign_wellFormed m _ _ h (by simp))

theorem indexSong_wellFormed (lyrics : List String) : WellFormedUsage (indexSong lyrics) :=
  indexLoop_wellFormed lyrics [] 0 ⟨by simp, by simp⟩

theorem indexLoop_lookup (w : String) (rest : List String) :
    ∀ (m : PerSongUsageMap) (k : Int),
      (usageLookup (indexLoop m k rest) w).getD [] =
        (usageLookup m w).getD [] ++ positionsFrom w k rest := by
  induction rest with
  | nil => intro m k; simp [indexLoop, positionsFrom]
  | cons t rest ih =>
    intro m k
    simp only [indexLoop, positionsFrom]
    by_cases h : normalizeWord t = w
    · rw [if_pos h]
      cases hl : usageLookup m (normalizeWord t) with
      | none =>
        simp only []
        rw [ih, usageLookup_assign, if_pos h, ← h, hl]
        simp
      | some l =>
        simp only []
        rw [ih, usageLookup_assign, if_pos h, ← h, hl]
        simp
    · rw [if_neg h]
      cases hl : usageLookup m (normalizeWord t) with
      | none =>
        simp only []
        rw [ih, usageLookup_assign, if_neg h]
      | some l =>
        simp only []
        rw [ih, usageLookup_assign, if_neg h]

theorem positionsFrom_eq (w : String) (lyrics : List String) :
    ∀ k : Int, positionsFrom w k lyrics = (positionsOf lyrics w).map (fun p => k + p) := by
  induction lyrics with
  | nil => intro k; simp [positionsFrom, positionsOf]
  | cons t rest ih =>
    intro k
    have hrange : positionsOf (t :: rest) w =
        (if normalizeWord t = w then [0] else []) ++ (positionsOf rest w).map (fun p => 1 + p) := by
      have hf : ((fun i => decide (Option.map normalizeWord (t :: rest)[i]? = some w)) ∘ Nat.succ)
          = (fun i => decide (Option.map normalizeWord rest[i]? = some w)) := by
        funext i; simp
      have hm : ∀ l : List Nat, List.map Int.ofNat (List.map Nat.succ l)
          = List.map (fun p => 1 + p) (List.map Int.ofNat l) := by
        intro l
        rw [List.map_map, List.map_map]
        apply List.map_congr_left
        intro a _; simp; omega
      simp only [positionsOf, List.length_cons, List.range_succ_eq_map, List.filter_cons,
        List.getElem?_cons_zero, Option.map_some', Option.some.injEq, List.filter_map, hf, hm]
      by_cases h : normalizeWord t = w
      · simp [h]
        intros; omega
      · simp [h]
        intros; omega
    rw [hrange]
    simp only [positionsFrom, ih (k + 1)]
    by_cases h : normalizeWord t = w
    · simp only [h, if_true, List.map_append, List.map_cons, List.map_nil, List.map_map,
        List.singleton_append, add_zero]
      refine congrArg₂ _ rfl ?_
      apply List.map_congr_left
      intro a _; simp; omega
    · simp only [h, if_false, List.nil_append, List.map_map]
      apply List.map_congr_left
      intro a _; simp; omega

theorem indexSong_lookup_getD (lyrics : List String) (w : String) :
    (usageLookup (indexSong lyrics) w).getD [] = positionsOf lyrics w := by
  rw [indexSong, indexLoop_lookup, positionsFrom_eq]
  simp [usageLookup]

theorem indexSong_lookup (lyrics : List String) (w : String) :
    usageLookup (indexSong lyrics) w =
      if positionsOf lyrics w = [] then none else some (positionsOf lyrics w) := by
  have h := indexSong_lookup_getD lyrics w
  cases hl : usageLookup (indexSong lyrics) w with
  | none =>
    rw [hl] at h
    simp only [Option.getD_none] at h
    rw [if_pos h.symm]
  | some v =>
    rw [hl] at h
    simp only [Option.getD_some] at h
    have hne : v ≠ [] := (indexSong_wellFormed lyrics).2 _ (usageLookup_mem _ _ _ hl)
    rw [← h, if_neg hne]

theorem mem_positionsOf (lyrics : List String) (w : String) (p : Int) :
    p ∈ positionsOf lyrics w ↔
      0 ≤ p ∧ p < lyrics.length ∧ (lyrics[p.toNat]?).map normalizeWord = some w := by
  simp only [positionsOf, List.mem_map, List.mem_filter, List.mem_range, decide_eq_true_eq]
  constructor
  · rintro ⟨i, ⟨hi, hw⟩, rfl⟩
    refine ⟨Int.ofNat_nonneg i, by simpa using hi, ?_⟩
    simpa using hw
  · rintro ⟨h0, h1, hw⟩
    refine ⟨p.toNat, ⟨by omega, hw⟩, ?_⟩
    simp [Int.toNat_of_nonneg h0]

theorem positionsOf_ne_nil_iff (lyrics : List String) (w : String) :
    positionsOf lyrics w ≠ [] ↔ ∃ t ∈ lyrics, normalizeWord t = w := by
  constructor
  · intro h
    obtain ⟨p, hp⟩ := List.exists_mem_of_ne_nil _ h
    obtain ⟨-, -, hw⟩ := (mem_positionsOf lyrics w p).1 hp
    cases ht : lyrics[p.toNat]? with
    | none => rw [ht] at hw; simp at hw
    | some t =>
      rw [ht] at hw
      simp only [Option.map_some', Option.some.injEq] at hw
      exact ⟨t, List.getElem?_mem ht, hw⟩
  · rintro ⟨t, ht, hw⟩ h
    obtain ⟨i, hi, hget⟩ := List.getElem_of_mem ht
    have hmem : (i : Int) ∈ positionsOf lyrics w := by
      rw [mem_positionsOf]
      refine ⟨Int.ofNat_nonneg i, by simpa using hi, ?_⟩
      simp [List.getElem?_eq_getElem hi, hget, hw]
    rw [h] at hmem
    simp at hmem

theorem positionsOf_sorted (lyrics : List String) (w : String) :
    (positionsOf lyrics w).Sorted (fun a b => a < b) := by
  unfold positionsOf List.Sorted
  rw [List.pairwise_map]
  refine List.Pairwise.imp ?_ ((List.pairwise_lt_range lyrics.length).filter _)
  intro a b hab
  exact Int.ofNat_lt.2 hab

/-- C7 (indexer correctness). For every lyric sequence and every word `w`: the usage map
has an entry for `w` exactly when the list `positionsOf lyrics w` of all positions whose
token normalizes to `w` is non-empty, and the entry is that list; there is an entry if
and only if some token normalizes to `w`; the list is strictly ascending and holds
exactly the positions `p` in `[0, len(lyrics)-1]` with `normalize(lyrics[p]) = w`; the
keys of the map are pairwise distinct; every position of the song is in the list of
exactly one word; and the empty lyric sequence yields the empty map. -/
theorem indexer_correct (lyrics : List String) (w : String) :
    (usageLookup (indexSong lyrics) w =
      if positionsOf lyrics w = [] then none else some (positionsOf lyrics w)) ∧
    ((usageLookup (indexSong lyrics) w).isSome ↔ ∃ t ∈ lyrics, normalizeWord t = w) ∧
    (positionsOf lyrics w).Sorted (fun a b => a < b) ∧
    (∀ p : Int, p ∈ positionsOf lyrics w ↔
      0 ≤ p ∧ p ≤ (lyrics.length : Int) - 1 ∧
        (lyrics[p.toNat]?).map normalizeWord = some w) ∧
    ((indexSong lyrics).map Prod.fst).Nodup ∧
    (∀ i : Nat, i < lyrics.length →
      ∃! k, ∃ pos, usageLookup (indexSong lyrics) k = some pos ∧ (i : Int) ∈ pos) ∧
    indexSong [] = [] := by
  refine ⟨indexSong_lookup lyrics w, ?_, positionsOf_sorted lyrics w, ?_,
    (indexSong_wellFormed lyrics).1, ?_, rfl⟩
  · rw [indexSong_lookup, ← positionsOf_ne_nil_iff]
    split <;> simp_all
  · intro p
    rw [mem_positionsOf]
    constructor
    · rintro ⟨h0, h1, h2⟩; exact ⟨h0, by omega, h2⟩
    · rintro ⟨h0, h1, h2⟩; exact ⟨h0, by omega, h2⟩
  · intro i hi
    have hmem : ∀ k pos, usageLookup (indexSong lyrics) k = some pos →
        ((i : Int) ∈ pos ↔ normalizeWord lyrics[i] = k) := by
      intro k pos hk
      rw [indexSong_lookup] at hk
      split at hk
      · exact absurd hk (by simp)
      · simp only [Option.some.injEq] at hk
        rw [← hk, mem_positionsOf]
        simp [List.getElem?_eq_getElem hi, hi]
    have hin : (i : Int) ∈ positionsOf lyrics (normalizeWord lyrics[i]) := by
      rw [mem_positionsOf]
      simp [List.getElem?_eq_getElem hi, hi]
    refine ⟨normalizeWord lyrics[i], ⟨positionsOf lyrics (normalizeWord lyrics[i]), ?_, hin⟩, ?_⟩
    · rw [indexSong_lookup, if_neg (List.ne_nil_of_mem hin)]
    · rintro k ⟨pos, hk, hp⟩
      exact ((hmem k pos hk).1 hp).symm

/-- The count read off the usage map of the indexer is the number of positions whose
token normalizes to the word. -/
theorem usageCount_indexSong (lyrics : List String) (w : String) :
    usageCount (indexSong lyrics) w = (positionsOf lyrics w).length := by
  rw [usageCount, indexSong_lookup_getD]

/-- The usage maps that `main` ingests are well-formed. -/
theorem corpusFrom_wellFormed (songs : List song) :
    ∀ k : Int, ∀ s ∈ corpusFrom k songs, WellFormedUsage s.2 := by
  induction songs with
  | nil => intro k s hs; simp [corpusFrom] at hs
  | cons t rest ih =>
    intro k s hs
    simp only [corpusFrom, List.mem_cons] at hs
    rcases hs with h | h
    · subst h; exact indexSong_wellFormed _
    · exact ih (k + 1) s h

/-! ## Context windows -/

theorem writeWords_spec (lyrics : List String) (n : Nat) :
    ∀ (i : Int) (buf : String), 0 ≤ i → i + n ≤ lyrics.length →
      writeWords lyrics i buf n =
        some (((lyrics.drop i.toNat).take n).foldl (fun buf word => buf ++ word ++ " ") buf) := by
  induction n with
  | zero => intro i buf _ _; simp [writeWords]
  | succ n ih =>
    intro i buf h0 h1
    have hlt : i.toNat < lyrics.length := by omega
    have hget : goIndex lyrics i = some lyrics[i.toNat] := by
      simp [goIndex, List.getElem?_eq_getElem hlt]; omega
    have hnext : (i + 1).toNat = i.toNat + 1 := by omega
    rw [writeWords, hget]
    simp only []
    rw [ih (i + 1) _ (by omega) (by push_cast at h1 ⊢; omega), hnext,
      List.drop_eq_getElem_cons hlt, List.take_succ_cons, List.foldl_cons]

theorem contextString_eq (R : Int) (lyrics : List String) (p a b : Int)
    (hw : contextWindow R lyrics.length p = (a, b)) (ha : 0 ≤ a) (hab : a ≤ b)
    (hb : b ≤ (lyrics.length : Int) - 1) :
    contextString R lyrics p = some (joinWords (lyricsSlice lyrics a b)) ∧
      ((lyricsSlice lyrics a b).length : Int) = b - a + 1 := by
  constructor
  · simp only [contextString, hw]
    rw [writeWords_spec lyrics _ a "" ha (by omega)]
    rfl
  · simp only [lyricsSlice, List.length_take, List.length_drop]
    omega

/-- C9 (context window length). For a lyric sequence of length `L`, a radius `R ≥ 0` with
`L > 2R+1` and a position `p` in `[0, L-1]`: if `R ≤ p ≤ L-1-R` the context is the
`2R+1` words `lyrics[p-R..p+R]`; if `p < R` it is the `p+R+1 < 2R+1` words
`lyrics[0..p+R]`; if `p > L-1-R` it is the `L-p+R < 2R+1` words `lyrics[p-R..L-1]`; each
word is followed by one space; and the window `[start, end]` satisfies
`0 ≤ start ≤ p ≤ end ≤ L-1`, so every index that is read is in range. -/
theorem context_window_length (lyrics : List String) (R p : Int) (hR : 0 ≤ R)
    (hL : 2 * R + 1 < lyrics.length) (hp0 : 0 ≤ p) (hp1 : p ≤ (lyrics.length : Int) - 1) :
    (R ≤ p → p ≤ (lyrics.length : Int) - 1 - R →
      contextString R lyrics p = some (joinWords (lyricsSlice lyrics (p - R) (p + R))) ∧
      ((lyricsSlice lyrics (p - R) (p + R)).length : Int) = 2 * R + 1) ∧
    (p < R →
      contextString R lyrics p = some (joinWords (lyricsSlice lyrics 0 (p + R))) ∧
      ((lyricsSlice lyrics 0 (p + R)).length : Int) = p + R + 1 ∧
      ((lyricsSlice lyrics 0 (p + R)).length : Int) < 2 * R + 1) ∧
    ((lyrics.length : Int) - 1 - R < p →
      contextString R lyrics p =
        some (joinWords (lyricsSlice lyrics (p - R) ((lyrics.length : Int) - 1))) ∧
      ((lyricsSlice lyrics (p - R) ((lyrics.length : Int) - 1)).length : Int) =
        (lyrics.length : Int) - p + R ∧
      ((lyricsSlice lyrics (p - R) ((lyrics.length : Int) - 1)).length : Int) < 2 * R + 1) ∧
    (0 ≤ (contextWindow R lyrics.length p).1 ∧
      (contextWindow R lyrics.length p).1 ≤ p ∧ p ≤ (contextWindow R lyrics.length p).2 ∧
      (contextWindow R lyrics.length p).2 ≤ (lyrics.length : Int) - 1) := by
  refine ⟨?_, ?_, ?_, ?_⟩
  · intro h1 h2
    have hw : contextWindow R lyrics.length p = (p - R, p + R) := by
      simp only [contextWindow]
      rw [if_neg (by omega), if_neg (by omega)]
    have := contextString_eq R lyrics p _ _ hw (by omega) (by omega) (by omega)
    exact ⟨this.1, by rw [this.2]; omega⟩
  · intro h1
    have hw : contextWindow R lyrics.length p = (0, p + R) := by
      simp only [contextWindow]
      rw [if_pos h1]
    have := contextString_eq R lyrics p _ _ hw (by omega) (by omega) (by omega)
    exact ⟨this.1, by rw [this.2]; omega, by rw [this.2]; omega⟩
  · intro h1
    have hw : contextWindow R lyrics.length p = (p - R, (lyrics.length : Int) - 1) := by
      simp only [contextWindow]
      rw [if_neg (by omega), if_pos (by omega)]
    have := contextString_eq R lyrics p _ _ hw (by omega) (by omega) (by omega)
    exact ⟨this.1, by rw [this.2]; omega, by rw [this.2]; omega⟩
  · simp only [contextWindow]
    split
    · simp only; omega
    · split
      · simp only; omega
      · simp only; omega

/-! ## Queries -/

theorem processSongs_eq_ingestSongs (topN : Int) (songs : List song) :
    ∀ (r : Ranking) (k : Int),
      processSongs topN r k songs = ingestSongs topN r (corpusFrom k songs) := by
  induction songs with
  | nil => intro r k; rfl
  | cons s rest ih =>
    intro r k
    simp only [processSongs, corpusFrom, ingestSongs]
    cases ingest topN r k (indexSong s.lyrics) with
    | none => rfl
    | some r1 => exact ih r1 (k + 1)

theorem mem_corpusFrom (songs : List song) (s : song) (hs : s ∈ songs) :
    ∀ k : Int, ∃ i, (i, indexSong s.lyrics) ∈ corpusFrom k songs := by
  induction songs with
  | nil => simp at hs
  | cons t rest ih =>
    intro k
    rcases List.mem_cons.1 hs with h | h
    · subst h; exact ⟨k, by simp [corpusFrom]⟩
    · obtain ⟨i, hi⟩ := ih h (k + 1)
      exact ⟨i, by simp [corpusFrom, hi]⟩

theorem trimNewline_append (x : String) : trimNewline (x ++ "\n") = x := by
  have hd : (x ++ "\n").data = x.data ++ ['\n'] := by
    simp [String.data_append]
  simp only [trimNewline, hd]
  simp

theorem rankInv_present (topN : Int) (e : Option (List songUsage)) (A : List songUsage)
    (h : RankInv topN e A) (hA : A ≠ []) : e ≠ none := by
  intro he
  subst he
  exact hA h

/-! ## The scenarios of the specification, evaluated -/

/-- Usage maps built by the indexer are well-formed. -/
theorem corpus_wellFormed (corpus : List (Int × List String)) :
    ∀ s ∈ corpus.map (fun c => (c.1, indexSong c.2)), WellFormedUsage s.2 := by
  intro s hs
  obtain ⟨c, -, rfl⟩ := List.mem_map.1 hs
  exact indexSong_wellFormed c.2

/-- The usage maps of scenario 5 are well-formed. -/
theorem sunSongs_wellFormed : ∀ s ∈ sunSongs, WellFormedUsage s.2 :=
  corpus_wellFormed [(0, ["sun", "sun"]), (1, ["sun", "sun", "sun", "sun", "sun"]),
    (2, ["sun"]), (3, ["sun", "sun", "sun", "sun", "sun"])]

/-- The ranking after song 0 of scenario 2 is reachable. -/
theorem fireRanking_reachable : Reachable 1 fireRanking :=
  Reachable.step emptyRanking fireRanking 0 "fire" [0, 1, 2, 3, 4] Reachable.empty rfl

/-- The ranking after two songs using "sun" is reachable. -/
theorem sunRanking_reachable : Reachable 3 sunRanking :=
  Reachable.step (mapAssign emptyRanking "sun" [⟨0, [0, 1]⟩]) sunRanking 1 "sun"
    [0, 1, 2, 3, 4]
    (Reachable.step emptyRanking _ 0 "sun" [0, 1] Reachable.empty rfl) rfl

/-- C1 at scenario 5 of the specification: `topN = 3`, counts 2, 5, 1, 5. -/
theorem topN_correct_witness :
    (1 : Int) ≤ 3 ∧ (∀ s ∈ sunSongs, WellFormedUsage s.2) ∧
    ∃ r, ingestSongs 3 emptyRanking sunSongs = some r ∧ ∀ w,
      (retained r w).map songUsage.count =
        (((sunSongs.map (fun s => usageCount s.2 w)).filter
          (fun c => decide (c ≠ 0))).insertionSort (fun a b => b ≤ a)).take (3 : Int).toNat ∧
      (retained r w).length =
        min (3 : Int).toNat (sunSongs.filter (fun s => decide (usageCount s.2 w ≠ 0))).length ∧
      ∀ s ∈ sunSongs, ∀ pos, usageLookup s.2 w = some pos →
        (⟨s.1, pos⟩ : songUsage) ∉ retained r w →
          ∀ x ∈ retained r w, pos.length ≤ x.count :=
  ⟨by decide, sunSongs_wellFormed, topN_correct 3 (by decide) sunSongs sunSongs_wellFormed⟩

/-- Scenario 5 evaluated: the two songs with count 5 and the song with count 2 are
retained, the earlier of the two tied songs first. -/
theorem sun_scenario :
    (ingestSongs 3 emptyRanking sunSongs).map (fun r => retained r "sun") =
      some [⟨1, [0, 1, 2, 3, 4]⟩, ⟨3, [0, 1, 2, 3, 4]⟩, ⟨0, [0, 1]⟩] := by decide

/-- C2 at the reachable ranking `sunRanking` with `topN = 3`. -/
theorem boundedness_witness :
    (1 : Int) ≤ 3 ∧ Reachable 3 sunRanking ∧ ((retained sunRanking "sun").length : Int) ≤ 3 :=
  ⟨by decide, sunRanking_reachable, boundedness 3 (by decide) sunRanking sunRanking_reachable "sun"⟩

/-- C3 at the reachable ranking `sunRanking` with `topN = 3`. -/
theorem sortedness_witness :
    (1 : Int) ≤ 3 ∧ Reachable 3 sunRanking ∧ nonIncreasing (retained sunRanking "sun") :=
  ⟨by decide, sunRanking_reachable, sortedness 3 (by decide) sunRanking sunRanking_reachable "sun"⟩

/-- C4 at scenario 2 of the specification: `topN = 1`, song 0 with count 5 is retained and
song 1 offers count 3. -/
theorem monotone_admission_witness :
    (1 : Int) ≤ 1 ∧ Reachable 1 fireRanking ∧
    fireRanking "fire" = some [⟨0, [0, 1, 2, 3, 4]⟩] ∧
    ((([⟨0, [0, 1, 2, 3, 4]⟩] : List songUsage).length : Int) = 1) ∧
    ∃ m r2, ([⟨0, [0, 1, 2, 3, 4]⟩] : List songUsage).getLast? = some m ∧
      (∀ x ∈ ([⟨0, [0, 1, 2, 3, 4]⟩] : List songUsage), m.count ≤ x.count) ∧
      updateWord 1 fireRanking 1 "fire" [0, 1, 2] = some r2 ∧
      (m.count < ([0, 1, 2] : List Int).length →
        (retained r2 "fire").Perm
          (⟨1, [0, 1, 2]⟩ :: ([⟨0, [0, 1, 2, 3, 4]⟩] : List songUsage).dropLast) ∧
        nonIncreasing (retained r2 "fire")) ∧
      (¬ m.count < ([0, 1, 2] : List Int).length → r2 = fireRanking) ∧
      ((1 : Int) ∉ ([⟨0, [0, 1, 2, 3, 4]⟩] : List songUsage).map songUsage.songIndex →
        ((⟨1, [0, 1, 2]⟩ : songUsage) ∈ retained r2 "fire" ↔
          m.count < ([0, 1, 2] : List Int).length)) :=
  ⟨by decide, fireRanking_reachable, rfl, rfl,
    monotone_admission 1 (by decide) fireRanking fireRanking_reachable "fire"
      [⟨0, [0, 1, 2, 3, 4]⟩] rfl rfl 1 [0, 1, 2]⟩

/-- Scenarios 2 and 3 evaluated: in both orders only song 0 is retained. -/
theorem fire_scenario :
    (ingestSongs 1 emptyRanking [fireA, fireB]).map (fun r => retained r "fire") =
      some [⟨0, [0, 1, 2, 3, 4]⟩] ∧
    (ingestSongs 1 emptyRanking [fireB, fireA]).map (fun r => retained r "fire") =
      some [⟨0, [0, 1, 2, 3, 4]⟩] := by decide

/-- C5 at the two songs of scenario 2 with `topN = 1`. -/
theorem uniqueness_witness :
    (1 : Int) ≤ 1 ∧ (([fireA, fireB].map Prod.fst).Nodup) ∧
    (∀ s ∈ [fireA, fireB], (s.2.map Prod.fst).Nodup) ∧
    ((∃ r, ingestSongs 1 emptyRanking [fireA, fireB] = some r ∧
      ∀ w, ((retained r w).map songUsage.songIndex).Nodup) ∧
    ∀ k : Nat, ∃ r, applyUpdates 1 emptyRanking ((updatesOf [fireA, fireB]).take k) = some r ∧
      ∀ w, ((retained r w).map songUsage.songIndex).Nodup) :=
  ⟨by decide, by decide, by decide,
    uniqueness 1 (by decide) [fireA, fireB] (by decide) (by decide)⟩

/-- C8 at a failing input: for the four-word song of scenario 1 and the default radius 5,
position 0 takes the first branch, the window is `[0, 5]` although the last index is 3,
and the extractor fails with an index out of range; so does the query "love" of the
program built from this corpus. -/
theorem context_short_song_panics :
    contextWindow 5 4 0 = (0, 5) ∧
    contextString 5 ["love", "is", "love", "love"] 0 = none ∧
    makeContextFromWordIndices 5 loveSongs 0 [0, 2, 3] = none ∧
    (buildIndex 10 loveSongs).map (fun r => r "love") = some (some [⟨0, [0, 2, 3]⟩]) ∧
    (buildIndex 10 loveSongs).bind (fun r => doSearchStep 5 loveSongs r "love\n") = none := by
  decide

/-- C9 at scenario 1: radius 1, four words, position 2 is interior. -/
theorem context_window_length_witness :
    (0 : Int) ≤ 1 ∧ 2 * (1 : Int) + 1 < (["love", "is", "love", "love"] : List String).length ∧
    (0 : Int) ≤ 2 ∧ (2 : Int) ≤ ((["love", "is", "love", "love"] : List String).length : Int) - 1 ∧
    contextString 1 ["love", "is", "love", "love"] 2 = some "is love love " :=
  ⟨by decide, by decide, by decide, by decide,
    ((context_window_length ["love", "is", "love", "love"] 1 2 (by decide) (by decide)
      (by decide) (by decide)).1 (by decide) (by decide)).1⟩

theorem bubble_facts_sorted (a : List songUsage) (x : songUsage) (h : nonIncreasing a) :
    ∃ D T, a = D ++ T ∧ bubbleSortSongUsages (a ++ [x]) = D ++ x :: T ∧
      (∀ t ∈ T, t.count < x.count) ∧ (∀ d ∈ D, x.count ≤ d.count) := by
  obtain ⟨D, T, ha, hb, hT, hD⟩ := bubble_facts a x
  refine ⟨D, T, ha, hb, hT, ?_⟩
  subst ha
  unfold nonIncreasing at h
  rw [List.pairwise_append] at h
  obtain ⟨h1, -, -⟩ := h
  intro d hd
  rcases List.eq_nil_or_concat D with h0 | ⟨D0, dl, h0⟩
  · subst h0; simp at hd
  · rw [List.concat_eq_append] at h0
    subst h0
    have hl := hD dl (by simp)
    rw [List.pairwise_append] at h1
    rcases List.mem_append.1 hd with hd | hd
    · exact le_trans hl (h1.2.2 d hd dl (by simp))
    · simp at hd; subst hd; exact hl

theorem bubbleSort_perm (usages : List songUsage) :
    (bubbleSortSongUsages usages).Perm usages := by
  rcases List.eq_nil_or_concat usages with h0 | ⟨a, x, h0⟩
  · subst h0; exact List.Perm.refl _
  · rw [List.concat_eq_append] at h0
    subst h0
    exact bubble_perm a x

/-- C14 (a single pass suffices). For every list of song usages whose part without the
last element is non-increasing by occurrence count, `bubbleSortSongUsages` returns a
list that is non-increasing and a rearrangement of the input; the empty list is
returned as it is; and for an input `a ++ [x]` the result is `D ++ x :: T` with
`a = D ++ T`, so the entries other than `x` keep their relative order, where `T`
consists of entries with a count strictly smaller than that of `x` and every entry of
`D` has a count at least that of `x`: the last element has moved in front of exactly the
trailing entries with a strictly smaller count. -/
theorem single_pass_suffices (usages : List songUsage)
    (h : nonIncreasing usages.dropLast) :
    nonIncreasing (bubbleSortSongUsages usages) ∧
    (bubbleSortSongUsages usages).Perm usages ∧
    (usages = [] → bubbleSortSongUsages usages = []) ∧
    ∀ a x, usages = a ++ [x] →
      ∃ D T, a = D ++ T ∧ bubbleSortSongUsages usages = D ++ x :: T ∧
        (∀ t ∈ T, t.count < x.count) ∧ (∀ d ∈ D, x.count ≤ d.count) := by
  refine ⟨?_, bubbleSort_perm usages, ?_, ?_⟩
  · rcases List.eq_nil_or_concat usages with h0 | ⟨a, x, h0⟩
    · subst h0; simp [bubbleSortSongUsages, bubbleLoop, nonIncreasing]
    · rw [List.concat_eq_append] at h0
      subst h0
      rw [List.dropLast_concat] at h
      exact bubble_nonIncreasing a x h
  · intro h0; subst h0; rfl
  · intro a x h0
    subst h0
    rw [List.dropLast_concat] at h
    exact bubble_facts_sorted a x h

/-- C14 at a list whose last element belongs in front of two of the three others. -/
theorem single_pass_suffices_witness :
    nonIncreasing ([⟨0, [0, 1, 2]⟩, ⟨1, [0]⟩, ⟨2, []⟩, ⟨3, [0, 1]⟩] : List songUsage).dropLast ∧
    bubbleSortSongUsages [⟨0, [0, 1, 2]⟩, ⟨1, [0]⟩, ⟨2, []⟩, ⟨3, [0, 1]⟩] =
      [⟨0, [0, 1, 2]⟩, ⟨3, [0, 1]⟩, ⟨1, [0]⟩, ⟨2, []⟩] ∧
    nonIncreasing (bubbleSortSongUsages [⟨0, [0, 1, 2]⟩, ⟨1, [0]⟩, ⟨2, []⟩, ⟨3, [0, 1]⟩]) :=
  ⟨by simp [nonIncreasing, songUsage.count], by decide,
    (single_pass_suffices [⟨0, [0, 1, 2]⟩, ⟨1, [0]⟩, ⟨2, []⟩, ⟨3, [0, 1]⟩]
      (by simp [nonIncreasing, songUsage.count])).1⟩

/-! ## The worked example of the specification -/

/-- C12 fails as stated: the context strings of the example end in a space; the one for
position 0 is "love is " and not "love is", and likewise for positions 2 and 3. -/
theorem worked_example_trailing_space :
    makeContextFromWordIndices 1 loveSongs 0 [0, 2, 3] =
      some ["love is ", "is love love ", "love love "] ∧
    makeContextFromWordIndices 1 loveSongs 0 [0, 2, 3] ≠
      some ["love is", "is love love", "love love"] ∧
    contextString 1 ["love", "is", "love", "love"] 0 ≠ some "love is" ∧
    contextString 1 ["love", "is", "love", "love"] 2 ≠ some "is love love" ∧
    contextString 1 ["love", "is", "love", "love"] 3 ≠ some "love love" := by
  decide

/-- C12, as amended. For the corpus of one song with lyrics "love is love love",
`topN = 10` and radius 1: indexing yields exactly the entries "love" with positions
0, 2, 3 and "is" with position 1; the ranking has the one entry of song 0 with those
positions under "love"; the query "love" returns one result with three occurrences;
and the context strings are "love is " for position 0, "is love love " for position 2
and "love love " for position 3, each word being followed by one space. -/
theorem worked_example :
    indexSong ["love", "is", "love", "love"] = [("love", [0, 2, 3]), ("is", [1])] ∧
    (∀ w, usageLookup (indexSong ["love", "is", "love", "love"]) w =
      if w = "love" then some [0, 2, 3] else if w = "is" then some [1] else none) ∧
    (buildIndex 10 loveSongs).map (fun r => r "love") = some (some [⟨0, [0, 2, 3]⟩]) ∧
    (buildIndex 10 loveSongs).bind (fun r => doSearchStep 1 loveSongs r "love\n") =
      some (searchOutcome.found [⟨1, 3, [("title", "artist", "love is "),
        ("title", "artist", "is love love "), ("title", "artist", "love love ")]⟩]) ∧
    contextString 1 ["love", "is", "love", "love"] 0 = some "love is " ∧
    contextString 1 ["love", "is", "love", "love"] 2 = some "is love love " ∧
    contextString 1 ["love", "is", "love", "love"] 3 = some "love love " := by
  refine ⟨by decide, ?_, by decide, by decide, by decide, by decide, by decide⟩
  intro w
  have h : indexSong ["love", "is", "love", "love"] = [("love", [0, 2, 3]), ("is", [1])] := by
    decide
  rw [h]
  simp only [usageLookup]
  by_cases h1 : w = "love"
  · subst h1; simp
  · by_cases h2 : w = "is"
    · subst h2; simp
    · simp [h1, h2, Ne.symm h1, Ne.symm h2, eq_comm]


/-! ## Shape of the extractor output -/

theorem writeWords_zero (lyrics : List String) (i : Int) (buf : String) :
    writeWords lyrics i buf 0 = some buf := rfl

theorem contextString_inside (R : Int) (lyrics : List String) (p : Int)
    (ha : 0 ≤ (contextWindow R lyrics.length p).1)
    (hb : (contextWindow R lyrics.length p).2 ≤ (lyrics.length : Int) - 1) :
    contextString R lyrics p =
      some (joinWords (lyricsSlice lyrics (contextWindow R lyrics.length p).1
        (contextWindow R lyrics.length p).2)) := by
  by_cases hab : (contextWindow R lyrics.length p).1 ≤ (contextWindow R lyrics.length p).2
  · exact (contextString_eq R lyrics p _ _ rfl ha hab hb).1
  · have hn : ((contextWindow R lyrics.length p).2 - (contextWindow R lyrics.length p).1
        + 1).toNat = 0 := by omega
    simp only [contextString, lyricsSlice, hn]
    rfl

theorem contextLoop_inside (R : Int) (lyrics : List String) (indices : List Int)
    (hin : ∀ p ∈ indices, 0 ≤ (contextWindow R lyrics.length p).1 ∧
      (contextWindow R lyrics.length p).2 ≤ (lyrics.length : Int) - 1) :
    contextLoop R lyrics indices =
      some (indices.map (fun p => joinWords (lyricsSlice lyrics
        (contextWindow R lyrics.length p).1 (contextWindow R lyrics.length p).2))) := by
  induction indices with
  | nil => rfl
  | cons p rest ih =>
    have hp := hin p (List.mem_cons_self _ _)
    simp only [contextLoop, contextString_inside R lyrics p hp.1 hp.2,
      ih (fun q hq => hin q (List.mem_cons_of_mem _ hq)), List.map_cons]

theorem joinWords_concat (words : List String) (word : String) :
    joinWords (words ++ [word]) = joinWords words ++ word ++ " " := by
  simp [joinWords, List.foldl_append]

/-- C13 (shape of the extractor output). For every song of the corpus, every radius and
every list of positions whose windows lie inside the lyrics, the extractor returns a
list with exactly one string per position, in the order of the positions; the string
of a position is made of the words `lyrics[start..end]` of its window in lyric order,
each word followed by exactly one space (so the empty window gives the empty string
and every further word appends itself and one space). -/
theorem extractor_shape (R : Int) (songs : List song) (songIndex : Int) (s : song)
    (indices : List Int) (hs : goIndex songs songIndex = some s)
    (hin : ∀ p ∈ indices, 0 ≤ (contextWindow R s.lyrics.length p).1 ∧
      (contextWindow R s.lyrics.length p).2 ≤ (s.lyrics.length : Int) - 1) :
    ∃ out, makeContextFromWordIndices R songs songIndex indices = some out ∧
      out.length = indices.length ∧
      out = indices.map (fun p => joinWords (lyricsSlice s.lyrics
        (contextWindow R s.lyrics.length p).1 (contextWindow R s.lyrics.length p).2)) ∧
      joinWords [] = "" ∧
      ∀ (words : List String) (word : String),
        joinWords (words ++ [word]) = joinWords words ++ word ++ " " := by
  refine ⟨_, ?_, ?_, rfl, rfl, joinWords_concat⟩
  · simp only [makeContextFromWordIndices, hs]
    exact contextLoop_inside R s.lyrics indices hin
  · simp

/-- C13 at the song of scenario 1 with radius 1 and the positions of "love". -/
theorem extractor_shape_witness :
    goIndex loveSongs 0 = some ⟨"artist", "title", ["love", "is", "love", "love"]⟩ ∧
    (∀ p ∈ ([0, 2, 3] : List Int),
      0 ≤ (contextWindow 1 (["love", "is", "love", "love"] : List String).length p).1 ∧
      (contextWindow 1 (["love", "is", "love", "love"] : List String).length p).2 ≤
        ((["love", "is", "love", "love"] : List String).length : Int) - 1) ∧
    ∃ out, makeContextFromWordIndices 1 loveSongs 0 [0, 2, 3] = some out ∧
      out.length = ([0, 2, 3] : List Int).length :=
  ⟨by decide, by decide,
    (extractor_shape 1 loveSongs 0 ⟨"artist", "title", ["love", "is", "love", "love"]⟩
      [0, 2, 3] (by decide) (by decide)).imp (fun _ h => ⟨h.1, h.2.1⟩)⟩


/-! ## Frame of ingestion and independence of the iteration order -/

theorem mapAssign_self (r : Ranking) (w : String) (g : List songUsage) (h : r w = some g) :
    mapAssign r w g = r := by
  funext k
  by_cases hk : k = w
  · subst hk; rw [mapAssign_same, h]
  · rw [mapAssign_other _ _ _ _ hk]

theorem mapAssign_comm (r : Ranking) (w1 w2 : String) (g1 g2 : List songUsage)
    (h : w1 ≠ w2) :
    mapAssign (mapAssign r w1 g1) w2 g2 = mapAssign (mapAssign r w2 g2) w1 g1 := by
  funext k
  by_cases h1 : k = w1
  · subst h1
    rw [mapAssign_other _ _ _ _ h, mapAssign_same, mapAssign_same]
  · by_cases h2 : k = w2
    · subst h2
      rw [mapAssign_same, mapAssign_other _ _ _ _ h1, mapAssign_same]
    · rw [mapAssign_other _ _ _ _ h2, mapAssign_other _ _ _ _ h1,
        mapAssign_other _ _ _ _ h1, mapAssign_other _ _ _ _ h2]

theorem updateWord_eq_nextEntry (topN : Int) (r : Ranking) (si : Int) (w : String)
    (idx : List Int) :
    updateWord topN r si w idx = (nextEntry topN (r w) ⟨si, idx⟩).map (mapAssign r w) := by
  unfold updateWord nextEntry
  cases hrw : r w with
  | none => rfl
  | some g =>
    simp only []
    split
    · rfl
    · cases hn : goIndex g (topN - 1) with
      | none => rfl
      | some nth =>
        simp only []
        split
        · rfl
        · simp only [Option.map_some', mapAssign_self r w g hrw]

theorem nextEntry_total (topN : Int) (htop : 1 ≤ topN) (old : Option (List songUsage))
    (s : songUsage) : ∃ g, nextEntry topN old s = some g := by
  unfold nextEntry
  cases old with
  | none => exact ⟨_, rfl⟩
  | some g =>
    simp only []
    split
    · exact ⟨_, rfl⟩
    · rename_i hlen
      have hlt : (topN - 1).toNat < g.length := by omega
      have hget : goIndex g (topN - 1) = some g[(topN - 1).toNat] := by
        simp [goIndex, List.getElem?_eq_getElem hlt]; omega
      rw [hget]
      simp only []
      split
      · exact ⟨_, rfl⟩
      · exact ⟨_, rfl⟩

theorem nextEntry_mem (topN : Int) (old : Option (List songUsage)) (s : songUsage)
    (g : List songUsage) (h : nextEntry topN old s = some g) :
    ∀ e ∈ g, e ∈ old.getD [] ∨ e = s := by
  unfold nextEntry at h
  cases old with
  | none =>
    simp only [Option.some.injEq] at h
    subst h
    intro e he
    simp at he
    exact Or.inr he
  | some g0 =>
    simp only [Option.getD_some] at h ⊢
    intro e he
    split at h
    · simp only [Option.some.injEq] at h
      subst h
      have := (bubbleSort_perm _).subset he
      rcases List.mem_append.1 this with h1 | h1
      · exact Or.inl h1
      · simp at h1; exact Or.inr h1
    · cases hn : goIndex g0 (topN - 1) with
      | none => rw [hn] at h; exact absurd h (by simp)
      | some nth =>
        rw [hn] at h
        simp only [] at h
        split at h
        · simp only [Option.some.injEq] at h
          subst h
          have := (bubbleSort_perm _).subset he
          rcases List.mem_or_eq_of_mem_set this with h1 | h1
          · exact Or.inl h1
          · exact Or.inr h1
        · simp only [Option.some.injEq] at h
          subst h
          exact Or.inl he

theorem updateWord_total (topN : Int) (htop : 1 ≤ topN) (r : Ranking) (si : Int)
    (w : String) (idx : List Int) : ∃ r2, updateWord topN r si w idx = some r2 := by
  obtain ⟨g, hg⟩ := nextEntry_total topN htop (r w) ⟨si, idx⟩
  exact ⟨mapAssign r w g, by rw [updateWord_eq_nextEntry, hg]; rfl⟩

theorem updateWord_mem (topN : Int) (r r2 : Ranking) (si : Int) (w : String)
    (idx : List Int) (h : updateWord topN r si w idx = some r2) (k : String) :
    ∀ e ∈ retained r2 k, e ∈ retained r k ∨ (k = w ∧ e = ⟨si, idx⟩) := by
  intro e he
  by_cases hk : k = w
  · subst hk
    rw [updateWord_eq_nextEntry] at h
    cases hg : nextEntry topN (r k) ⟨si, idx⟩ with
    | none => rw [hg] at h; exact absurd h (by simp)
    | some g =>
      rw [hg] at h
      simp only [Option.map_some', Option.some.injEq] at h
      subst h
      simp only [retained, mapAssign_same, Option.getD_some] at he
      rcases nextEntry_mem topN (r k) _ g hg e he with h1 | h1
      · exact Or.inl h1
      · exact Or.inr ⟨rfl, h1⟩
  · left
    unfold retained at he ⊢
    rw [updateWord_frame topN r r2 si w idx h k hk] at he
    exact he

/-- C18 (frame of ingestion). For `topN ≥ 1`, ingesting the usage map of one song into any
ranking returns a ranking that agrees with the old one at every word that is not a
key of the usage map (same retained sequence, or absent as before), and in which every
retained entry of every word is either an entry that was retained for that word
before, with the same song index and positions, or the entry of the ingested song for
that word: old entries are reordered or evicted, never edited. -/
theorem ingestion_frame (topN : Int) (htop : 1 ≤ topN) (si : Int) (u : PerSongUsageMap) :
    ∀ r : Ranking, ∃ r2, ingest topN r si u = some r2 ∧
      (∀ w, w ∉ u.map Prod.fst → r2 w = r w) ∧
      (∀ w, ∀ e ∈ retained r2 w,
        e ∈ retained r w ∨ ∃ pos, (w, pos) ∈ u ∧ e = ⟨si, pos⟩) := by
  induction u with
  | nil =>
    intro r
    exact ⟨r, rfl, fun _ _ => rfl, fun _ e he => Or.inl he⟩
  | cons p rest ih =>
    intro r
    obtain ⟨w0, idx⟩ := p
    obtain ⟨r1, hr1⟩ := updateWord_total topN htop r si w0 idx
    obtain ⟨r2, hr2, hframe, hmem⟩ := ih r1
    refine ⟨r2, by simp only [ingest, hr1]; exact hr2, ?_, ?_⟩
    · intro w hw
      simp only [List.map_cons, List.mem_cons, not_or] at hw
      rw [hframe w hw.2, updateWord_frame topN r r1 si w0 idx hr1 w hw.1]
    · intro w e he
      rcases hmem w e he with h1 | ⟨pos, hpos, hpe⟩
      · rcases updateWord_mem topN r r1 si w0 idx hr1 w e h1 with h2 | ⟨h2, h3⟩
        · exact Or.inl h2
        · subst h2
          exact Or.inr ⟨idx, List.mem_cons_self _ _, h3⟩
      · exact Or.inr ⟨pos, List.mem_cons_of_mem _ hpos, hpe⟩

theorem updateWord_comm (topN : Int) (r : Ranking) (a b : Int) (w1 w2 : String)
    (i1 i2 : List Int) (h : w1 ≠ w2) :
    (updateWord topN r a w1 i1).bind (fun r1 => updateWord topN r1 b w2 i2) =
      (updateWord topN r b w2 i2).bind (fun r1 => updateWord topN r1 a w1 i1) := by
  simp only [updateWord_eq_nextEntry]
  cases h1 : nextEntry topN (r w1) ⟨a, i1⟩ with
  | none =>
    cases h2 : nextEntry topN (r w2) ⟨b, i2⟩ with
    | none => rfl
    | some g2 =>
      simp only [Option.map_none', Option.none_bind, Option.map_some', Option.some_bind,
        mapAssign_other r w2 w1 g2 h, h1]
  | some g1 =>
    cases h2 : nextEntry topN (r w2) ⟨b, i2⟩ with
    | none =>
      simp only [Option.map_none', Option.none_bind, Option.map_some', Option.some_bind,
        mapAssign_other r w1 w2 g1 (Ne.symm h), h2]
    | some g2 =>
      simp only [Option.map_some', Option.some_bind,
        mapAssign_other r w1 w2 g1 (Ne.symm h), mapAssign_other r w2 w1 g2 h, h1, h2,
        mapAssign_comm r w1 w2 g1 g2 h]

theorem ingest_cons_bind (topN : Int) (r : Ranking) (si : Int) (w : String)
    (idx : List Int) (rest : PerSongUsageMap) :
    ingest topN r si ((w, idx) :: rest) =
      (updateWord topN r si w idx).bind (fun r1 => ingest topN r1 si rest) := by
  simp only [ingest]
  cases updateWord topN r si w idx <;> rfl

theorem ingest_perm (topN : Int) (si : Int) (u1 u2 : PerSongUsageMap) (h : u1.Perm u2) :
    (u1.map Prod.fst).Nodup → ∀ r : Ranking, ingest topN r si u1 = ingest topN r si u2 := by
  induction h with
  | nil => intro _ r; rfl
  | cons x _ ih =>
    intro hnd r
    obtain ⟨w, idx⟩ := x
    simp only [List.map_cons, List.nodup_cons] at hnd
    rw [ingest_cons_bind, ingest_cons_bind]
    congr 1
    funext r1
    exact ih hnd.2 r1
  | swap x y l =>
    intro hnd r
    obtain ⟨w1, i1⟩ := x
    obtain ⟨w2, i2⟩ := y
    simp only [List.map_cons, List.nodup_cons, List.mem_cons, not_or] at hnd
    have hne : w2 ≠ w1 := hnd.1.1
    simp only [ingest_cons_bind]
    rw [← Option.bind_assoc, ← Option.bind_assoc, updateWord_comm topN r si si w2 w1 i2 i1 hne]
  | trans h1 _ ih1 ih2 =>
    intro hnd r
    rw [ih1 hnd r]
    exact ih2 (((h1.map Prod.fst).nodup_iff).1 hnd) r

/-- C19 (independence of the map iteration order). For every ranking, song index and
usage map (whose keys are pairwise distinct, as the keys of a Go map are), processing
the pairs of the usage map in any two orders gives the same result: the same ranking,
or the same failure. -/
theorem ingest_iteration_order (topN : Int) (r : Ranking) (si : Int)
    (u1 u2 : PerSongUsageMap) (hperm : u1.Perm u2) (hkeys : (u1.map Prod.fst).Nodup) :
    ingest topN r si u1 = ingest topN r si u2 :=
  ingest_perm topN si u1 u2 hperm hkeys r


/-! ## Stable tie-break -/

theorem rankedBefore_nonIncreasing (l : List songUsage) (h : l.Pairwise rankedBefore) :
    nonIncreasing l := by
  unfold nonIncreasing
  refine List.Pairwise.imp ?_ h
  intro a b hab
  rcases hab with h1 | ⟨h1, -⟩
  · exact Nat.le_of_lt h1
  · exact Nat.le_of_eq h1

theorem bubble_stable (a : List songUsage) (x : songUsage) (h : a.Pairwise rankedBefore)
    (hlt : ∀ e ∈ a, e.songIndex < x.songIndex) :
    (bubbleSortSongUsages (a ++ [x])).Pairwise rankedBefore := by
  obtain ⟨D, T, ha, hb, hT, hD⟩ := bubble_facts_sorted a x (rankedBefore_nonIncreasing a h)
  rw [hb]
  subst ha
  rw [List.pairwise_append] at h ⊢
  obtain ⟨h1, h2, h3⟩ := h
  refine ⟨h1, ?_, ?_⟩
  · rw [List.pairwise_cons]
    exact ⟨fun t ht => Or.inl (hT t ht), h2⟩
  · intro d hd y hy
    rcases List.mem_cons.1 hy with hy | hy
    · subst hy
      rcases Nat.lt_or_ge y.count d.count with hc | hc
      · exact Or.inl hc
      · exact Or.inr ⟨Nat.le_antisymm (hD d hd) hc, hlt d (List.mem_append_left _ hd)⟩
    · exact h3 d hd y hy

theorem stable_step (topN : Int) (r r2 : Ranking) (si : Int) (w : String)
    (idx : List Int) (A : List songUsage) (hinv : RankInv topN (r w) A)
    (hst : (retained r w).Pairwise rankedBefore) (hlt : ∀ e ∈ A, e.songIndex < si)
    (h : updateWord topN r si w idx = some r2) :
    (retained r2 w).Pairwise rankedBefore := by
  cases hrw : r w with
  | none =>
    rw [updateWord_absent topN r si w idx hrw] at h
    simp only [Option.some.injEq] at h
    subst h
    simp [retained, mapAssign_same]
  | some R =>
    rw [hrw] at hinv
    obtain ⟨hne, hlen, -, rest, hperm, -, -⟩ := hinv
    simp only [retained, hrw, Option.getD_some] at hst
    have hR : ∀ e ∈ R, e.songIndex < si :=
      fun e he => hlt e (hperm.subset (List.mem_append_left _ he))
    by_cases hroom : (R.length : Int) < topN
    · rw [updateWord_room topN r si w idx R hrw hroom] at h
      simp only [Option.some.injEq] at h
      subst h
      simp only [retained, mapAssign_same, Option.getD_some]
      exact bubble_stable R ⟨si, idx⟩ hst hR
    · have hfull : (R.length : Int) = topN := by omega
      rcases List.eq_nil_or_concat R with h0 | ⟨init, m, h0⟩
      · exact absurd h0 hne
      · rw [List.concat_eq_append] at h0
        subst h0
        rw [updateWord_full topN r si w idx init m hrw hfull] at h
        split at h
        · simp only [Option.some.injEq] at h
          subst h
          simp only [retained, mapAssign_same, Option.getD_some]
          rw [List.pairwise_append] at hst
          exact bubble_stable init ⟨si, idx⟩ hst.1
            (fun e he => hR e (List.mem_append_left _ he))
        · simp only [Option.some.injEq] at h
          subst h
          simp only [retained, hrw, Option.getD_some]
          exact hst

theorem stable_applyUpdates (topN : Int) (htop : 1 ≤ topN) (ups : List wordUpdate) :
    ∀ (r : Ranking) (A : String → List songUsage), (∀ w, RankInv topN (r w) (A w)) →
      (∀ w, (retained r w).Pairwise rankedBefore) →
      (∀ w, ((A w ++ offered w ups).map songUsage.songIndex).Pairwise (fun a b => a < b)) →
      ∃ r2, applyUpdates topN r ups = some r2 ∧
        (∀ w, RankInv topN (r2 w) (A w ++ offered w ups)) ∧
        ∀ w, (retained r2 w).Pairwise rankedBefore := by
  induction ups with
  | nil =>
    intro r A h hst _
    exact ⟨r, rfl, fun w => by simpa [offered] using h w, hst⟩
  | cons u rest ih =>
    intro r A h hst hasc
    obtain ⟨si, w0, idx⟩ := u
    obtain ⟨r1, hr1, hinv1⟩ := rankInv_step topN htop r si w0 idx (A w0) (h w0)
    have hall : ∀ w, RankInv topN (r1 w) (A w ++ offered w [(si, w0, idx)]) := by
      intro w
      by_cases hw : w = w0
      · subst hw; rw [offered_single_same]; exact hinv1
      · rw [offered_single_other si w0 w idx hw, List.append_nil,
          updateWord_frame topN r r1 si w0 idx hr1 w hw]
        exact h w
    have hlt : ∀ e ∈ A w0, e.songIndex < si := by
      intro e he
      have h0 := hasc w0
      rw [offered_cons, offered_single_same, List.map_append, List.pairwise_append] at h0
      exact h0.2.2 e.songIndex (List.mem_map.2 ⟨e, he, rfl⟩) si (by simp)
    have hst1 : ∀ w, (retained r1 w).Pairwise rankedBefore := by
      intro w
      by_cases hw : w = w0
      · subst hw
        exact stable_step topN r r1 si w idx (A w) (h w) (hst w) hlt hr1
      · unfold retained
        rw [updateWord_frame topN r r1 si w0 idx hr1 w hw]
        exact hst w
    have hasc1 : ∀ w, (((A w ++ offered w [(si, w0, idx)]) ++ offered w rest).map
        songUsage.songIndex).Pairwise (fun a b => a < b) := by
      intro w
      have h0 := hasc w
      rw [offered_cons, ← List.append_assoc] at h0
      exact h0
    obtain ⟨r2, hr2, hinv2, hst2⟩ :=
      ih r1 (fun w => A w ++ offered w [(si, w0, idx)]) hall hst1 hasc1
    refine ⟨r2, ?_, ?_, hst2⟩
    · simp only [applyUpdates, hr1]; exact hr2
    · intro w
      rw [offered_cons, ← List.append_assoc]
      exact hinv2 w

theorem stable_from_empty (topN : Int) (htop : 1 ≤ topN)
    (songs : List (Int × PerSongUsageMap))
    (hasc : (songs.map Prod.fst).Pairwise (fun a b => a < b))
    (hkeys : ∀ s ∈ songs, (s.2.map Prod.fst).Nodup) (k : Nat) :
    ∃ r, applyUpdates topN emptyRanking ((updatesOf songs).take k) = some r ∧
      (∀ w, RankInv topN (r w) (offered w ((updatesOf songs).take k))) ∧
      ∀ w, (retained r w).Pairwise rankedBefore := by
  obtain ⟨r, hr, hinv, hst⟩ := stable_applyUpdates topN htop ((updatesOf songs).take k)
    emptyRanking (fun _ => []) (fun w => rankInv_empty topN w)
    (fun w => by simp [retained, emptyRanking])
    (fun w => by
      simp only [List.nil_append]
      exact List.Pairwise.sublist
        (((offered_sublist w _ _ (List.take_sublist k (updatesOf songs))).map
          songUsage.songIndex).trans (offered_songIndex_sublist w songs hkeys)) hasc)
  exact ⟨r, hr, fun w => by simpa using hinv w, hst⟩

theorem no_displacement (topN : Int) (r : Ranking) (w : String) (g : List songUsage)
    (m : songUsage) (si : Int) (idx : List Int) (hg : r w = some g)
    (hfull : (g.length : Int) = topN) (hm : g.getLast? = some m)
    (hle : idx.length ≤ m.count) : updateWord topN r si w idx = some r := by
  have hgm : g.dropLast ++ [m] = g := List.dropLast_append_getLast? m (by simp [hm])
  rw [← hgm] at hg hfull
  rw [updateWord_full topN r si w idx g.dropLast m hg hfull, if_neg (by omega)]

/-- C16 (stable tie-break). When songs are ingested in ascending order of their song
indices (as `main` does), with `topN ≥ 1`, then after all songs, and after any number
`k` of per-word updates on the way, the retained sequence of every word is ordered by
occurrence count, larger first, and among equal counts by song index, smaller first;
and in each of these states a word that already has `topN` entries is left unchanged
by an offer whose count does not exceed the count of the last entry, so a later song
never displaces an earlier one with an equal count. -/
theorem stable_tie_break (topN : Int) (htop : 1 ≤ topN)
    (songs : List (Int × PerSongUsageMap))
    (hasc : (songs.map Prod.fst).Pairwise (fun a b => a < b))
    (hkeys : ∀ s ∈ songs, (s.2.map Prod.fst).Nodup) :
    (∃ r, ingestSongs topN emptyRanking songs = some r ∧
      ∀ w, (retained r w).Pairwise rankedBefore) ∧
    ∀ k : Nat, ∃ r, applyUpdates topN emptyRanking ((updatesOf songs).take k) = some r ∧
      ∀ w, (retained r w).Pairwise rankedBefore ∧ nonIncreasing (retained r w) ∧
        ∀ g m si idx, r w = some g → (g.length : Int) = topN → g.getLast? = some m →
          idx.length ≤ m.count → updateWord topN r si w idx = some r := by
  refine ⟨?_, ?_⟩
  · obtain ⟨r, hr, -, hst⟩ := stable_from_empty topN htop songs hasc hkeys
      (updatesOf songs).length
    rw [List.take_length] at hr
    exact ⟨r, by rw [ingestSongs_eq_applyUpdates]; exact hr, hst⟩
  · intro k
    obtain ⟨r, hr, -, hst⟩ := stable_from_empty topN htop songs hasc hkeys k
    refine ⟨r, hr, fun w => ⟨hst w, rankedBefore_nonIncreasing _ (hst w), ?_⟩⟩
    intro g m si idx hg hfull hm hle
    exact no_displacement topN r w g m si idx hg hfull hm hle


/-! ## Where retained entries come from: absence and validity of positions -/

theorem rankInv_mem (topN : Int) (e : Option (List songUsage)) (A : List songUsage)
    (h : RankInv topN e A) : ∀ x ∈ e.getD [], x ∈ A := by
  cases e with
  | none => intro x hx; simp at hx
  | some R =>
    obtain ⟨-, -, -, rest, hperm, -, -⟩ := h
    intro x hx
    exact hperm.subset (List.mem_append_left _ hx)

theorem rankInv_none_iff (topN : Int) (e : Option (List songUsage)) (A : List songUsage)
    (h : RankInv topN e A) : e = none ↔ A = [] := by
  constructor
  · intro he; subst he; exact h
  · intro hA
    cases e with
    | none => rfl
    | some R =>
      obtain ⟨hne, -, -, rest, hperm, -, -⟩ := h
      subst hA
      have := hperm.length_eq
      simp at this
      exact absurd this.1 hne

theorem rankInv_nonempty (topN : Int) (R : List songUsage) (A : List songUsage)
    (h : RankInv topN (some R) A) : R ≠ [] := h.1

theorem offered_origin (w : String) (songs : List (Int × PerSongUsageMap))
    (hkeys : ∀ s ∈ songs, (s.2.map Prod.fst).Nodup) (e : songUsage)
    (he : e ∈ offered w (updatesOf songs)) :
    ∃ s ∈ songs, usageLookup s.2 w = some e.positions ∧ e.songIndex = s.1 := by
  rw [offered_updatesOf w songs hkeys, List.mem_filterMap] at he
  obtain ⟨s, hs, hmap⟩ := he
  cases hl : usageLookup s.2 w with
  | none => rw [hl] at hmap; simp at hmap
  | some pos =>
    rw [hl] at hmap
    simp only [Option.map_some', Option.some.injEq] at hmap
    subst hmap
    exact ⟨s, hs, hl, rfl⟩

theorem retained_origin (topN : Int) (htop : 1 ≤ topN)
    (songs : List (Int × PerSongUsageMap))
    (hkeys : ∀ s ∈ songs, (s.2.map Prod.fst).Nodup) (k : Nat) :
    ∃ r, applyUpdates topN emptyRanking ((updatesOf songs).take k) = some r ∧
      ∀ w, ∀ e ∈ retained r w,
        ∃ s ∈ songs, usageLookup s.2 w = some e.positions ∧ e.songIndex = s.1 := by
  obtain ⟨r, hr, hinv⟩ := rankInv_from_empty topN htop ((updatesOf songs).take k)
  refine ⟨r, hr, fun w e he => ?_⟩
  have h1 := rankInv_mem topN (r w) _ (hinv w) e he
  have h2 := (offered_sublist w _ _ (List.take_sublist k (updatesOf songs))).subset h1
  exact offered_origin w songs hkeys e h2

theorem corpusFrom_origin (songs : List song) :
    ∀ (k i : Int) (u : PerSongUsageMap), (i, u) ∈ corpusFrom k songs →
      ∃ s, goIndex songs (i - k) = some s ∧ u = indexSong s.lyrics := by
  induction songs with
  | nil => intro k i u h; simp [corpusFrom] at h
  | cons t rest ih =>
    intro k i u h
    simp only [corpusFrom, List.mem_cons, Prod.mk.injEq] at h
    rcases h with ⟨h1, h2⟩ | h
    · subst h1
      exact ⟨t, by simp [goIndex], h2⟩
    · obtain ⟨s, hs, hu⟩ := ih (k + 1) i u h
      refine ⟨s, ?_, hu⟩
      unfold goIndex at hs ⊢
      split at hs
      · exact absurd hs (by simp)
      · rename_i hge
        have h3 : ¬ i - k < 0 := by omega
        have h4 : (i - k).toNat = (i - (k + 1)).toNat + 1 := by omega
        rw [if_neg h3, h4, List.getElem?_cons_succ]
        exact hs

theorem corpusFrom_keys (songs : List song) (k : Int) :
    ∀ s ∈ corpusFrom k songs, (s.2.map Prod.fst).Nodup :=
  fun s hs => (corpusFrom_wellFormed songs k s hs).1

theorem goIndex_mem {α : Type} (xs : List α) (i : Int) (x : α) (h : goIndex xs i = some x) :
    x ∈ xs := by
  unfold goIndex at h
  split at h
  · exact absurd h (by simp)
  · exact List.getElem?_mem h

theorem entry_of_indexer (lyrics : List String) (w : String) (pos : List Int)
    (h : usageLookup (indexSong lyrics) w = some pos) :
    pos = positionsOf lyrics w ∧ pos ≠ [] := by
  rw [indexSong_lookup] at h
  split at h
  · exact absurd h (by simp)
  · rename_i hne
    simp only [Option.some.injEq] at h
    exact ⟨h.symm, by rw [← h]; exact hne⟩

theorem present_iff_token (topN : Int) (htop : 1 ≤ topN) (songs : List song) :
    ∃ r, buildIndex topN songs = some r ∧ ∀ w,
      (r w = none ↔ ¬ ∃ s ∈ songs, ∃ t ∈ s.lyrics, normalizeWord t = w) ∧
      (∀ g, r w = some g → g ≠ [] ∧ ∀ e ∈ g, e.positions ≠ []) := by
  obtain ⟨r, hr, hinv⟩ := ingestSongs_rankInv topN htop (corpusFrom 0 songs)
  refine ⟨r, by rw [buildIndex, processSongs_eq_ingestSongs]; exact hr, fun w => ⟨?_, ?_⟩⟩
  · rw [rankInv_none_iff topN (r w) _ (hinv w)]
    constructor
    · rintro hnil ⟨s, hs, t, ht, hw⟩
      obtain ⟨i, hi⟩ := mem_corpusFrom songs s hs 0
      have hne : positionsOf s.lyrics w ≠ [] := (positionsOf_ne_nil_iff _ _).2 ⟨t, ht, hw⟩
      have hl : usageLookup (indexSong s.lyrics) w = some (positionsOf s.lyrics w) := by
        rw [indexSong_lookup, if_neg hne]
      have hmem := mem_offered_updatesOf w _ _ hi _ hl
      rw [hnil] at hmem
      simp at hmem
    · intro hno
      by_contra hne
      obtain ⟨e, he⟩ := List.exists_mem_of_ne_nil _ hne
      obtain ⟨c, hc, hl, -⟩ := offered_origin w _ (corpusFrom_keys songs 0) e he
      obtain ⟨s, hs, hu⟩ := corpusFrom_origin songs 0 c.1 c.2 hc
      rw [hu] at hl
      obtain ⟨hpos, hposne⟩ := entry_of_indexer s.lyrics w _ hl
      rw [hpos] at hposne
      obtain ⟨t, ht, hw⟩ := (positionsOf_ne_nil_iff _ _).1 hposne
      exact hno ⟨s, goIndex_mem _ _ _ hs, t, ht, hw⟩
  · intro g hg
    have hw := hinv w
    rw [hg] at hw
    refine ⟨rankInv_nonempty topN g _ hw, fun e he => ?_⟩
    have h1 := rankInv_mem topN (some g) _ hw e he
    obtain ⟨c, hc, hl, -⟩ := offered_origin w _ (corpusFrom_keys songs 0) e h1
    obtain ⟨s, -, hu⟩ := corpusFrom_origin songs 0 c.1 c.2 hc
    rw [hu] at hl
    exact (entry_of_indexer s.lyrics w _ hl).2

theorem notFound_iff_absent (R : Int) (songs : List song) (r : Ranking) (w : String)
    (hw : w ≠ "EXIT") :
    doSearchStep R songs r (w ++ "\n") = some searchOutcome.notFound ↔ r w = none := by
  simp only [doSearchStep, trimNewline_append, if_neg hw]
  cases hq : r w with
  | none => simp
  | some usage =>
    simp only []
    cases searchResults R songs 0 usage <;> simp

/-- C11 (absence is explicit). For `topN ≥ 1` and every corpus, the ranking that results
from ingesting the songs of the corpus has no entry under `w` if and only if no song
contains a token whose normalization is `w`; a query for `w` (other than the exit word)
is answered "not found" in exactly that case; and whenever `w` has an entry, its
retained sequence is non-empty and every retained entry has at least one position. -/
theorem absence_explicit (R topN : Int) (htop : 1 ≤ topN) (songs : List song) :
    ∃ r, buildIndex topN songs = some r ∧ ∀ w,
      (r w = none ↔ ¬ ∃ s ∈ songs, ∃ t ∈ s.lyrics, normalizeWord t = w) ∧
      (w ≠ "EXIT" →
        (doSearchStep R songs r (w ++ "\n") = some searchOutcome.notFound ↔
          ¬ ∃ s ∈ songs, ∃ t ∈ s.lyrics, normalizeWord t = w)) ∧
      (∀ g, r w = some g → g ≠ [] ∧ ∀ e ∈ g, e.positions ≠ []) := by
  obtain ⟨r, hr, h⟩ := present_iff_token topN htop songs
  refine ⟨r, hr, fun w => ⟨(h w).1, fun hw => ?_, (h w).2⟩⟩
  rw [notFound_iff_absent R songs r w hw]
  exact (h w).1

/-- C17 (retained positions are valid). For `topN ≥ 1` and every corpus, after `main` has
ingested all songs, and after any number `k` of per-word updates on the way, every
entry retained under a word `w` refers to a song of the corpus by a valid index, and
its positions are the list the indexer builds for `w` over the lyrics of that song:
non-empty, strictly ascending, every position `p` within `[0, len(lyrics)-1]` and with
`normalize(lyrics[p]) = w`. -/
theorem retained_positions_valid (topN : Int) (htop : 1 ≤ topN) (songs : List song) :
    (∃ r, buildIndex topN songs = some r ∧
      ∀ w, ∀ e ∈ retained r w, ∃ s, goIndex songs e.songIndex = some s ∧
        usageLookup (indexSong s.lyrics) w = some e.positions ∧
        e.positions = positionsOf s.lyrics w ∧ e.positions ≠ [] ∧
        e.positions.Sorted (fun a b => a < b) ∧
        ∀ p ∈ e.positions, 0 ≤ p ∧ p ≤ (s.lyrics.length : Int) - 1 ∧
          (s.lyrics[p.toNat]?).map normalizeWord = some w) ∧
    ∀ k : Nat, ∃ r,
      applyUpdates topN emptyRanking ((updatesOf (corpusFrom 0 songs)).take k) = some r ∧
      ∀ w, ∀ e ∈ retained r w, ∃ s, goIndex songs e.songIndex = some s ∧
        usageLookup (indexSong s.lyrics) w = some e.positions ∧
        e.positions = positionsOf s.lyrics w ∧ e.positions ≠ [] ∧
        e.positions.Sorted (fun a b => a < b) ∧
        ∀ p ∈ e.positions, 0 ≤ p ∧ p ≤ (s.lyrics.length : Int) - 1 ∧
          (s.lyrics[p.toNat]?).map normalizeWord = some w := by
  have hmid : ∀ k : Nat, ∃ r,
      applyUpdates topN emptyRanking ((updatesOf (corpusFrom 0 songs)).take k) = some r ∧
      ∀ w, ∀ e ∈ retained r w, ∃ s, goIndex songs e.songIndex = some s ∧
        usageLookup (indexSong s.lyrics) w = some e.positions ∧
        e.positions = positionsOf s.lyrics w ∧ e.positions ≠ [] ∧
        e.positions.Sorted (fun a b => a < b) ∧
        ∀ p ∈ e.positions, 0 ≤ p ∧ p ≤ (s.lyrics.length : Int) - 1 ∧
          (s.lyrics[p.toNat]?).map normalizeWord = some w := by
    intro k
    obtain ⟨r, hr, horigin⟩ :=
      retained_origin topN htop (corpusFrom 0 songs) (corpusFrom_keys songs 0) k
    refine ⟨r, hr, fun w e he => ?_⟩
    obtain ⟨c, hc, hl, hidx⟩ := horigin w e he
    obtain ⟨s, hs, hu⟩ := corpusFrom_origin songs 0 c.1 c.2 hc
    rw [hu] at hl
    obtain ⟨hpos, hne⟩ := entry_of_indexer s.lyrics w _ hl
    refine ⟨s, by rw [hidx]; simpa using hs, hl, hpos, hne, ?_, ?_⟩
    · rw [hpos]; exact positionsOf_sorted s.lyrics w
    · intro p hp
      rw [hpos, mem_positionsOf] at hp
      exact ⟨hp.1, by omega, hp.2.2⟩
  refine ⟨?_, hmid⟩
  obtain ⟨r, hr, h⟩ := hmid (updatesOf (corpusFrom 0 songs)).length
  rw [List.take_length] at hr
  have hb : buildIndex topN songs = some r := by
    rw [buildIndex, processSongs_eq_ingestSongs, ingestSongs_eq_applyUpdates]
    exact hr
  exact ⟨r, hb, h⟩

/-! ## Further instances -/

/-- The songs that `main` ingests have indices that are at least the start index. -/
theorem corpusFrom_ge (songs : List song) :
    ∀ (k : Int), ∀ p ∈ corpusFrom k songs, k ≤ p.1 := by
  induction songs with
  | nil => intro k p hp; simp [corpusFrom] at hp
  | cons t rest ih =>
    intro k p hp
    simp only [corpusFrom, List.mem_cons] at hp
    rcases hp with h | h
    · subst h; exact le_refl _
    · have := ih (k + 1) p h
      omega

/-- The songs that `main` ingests are in ascending order of their indices. -/
theorem corpusFrom_ascending (songs : List song) :
    ∀ (k : Int), ((corpusFrom k songs).map Prod.fst).Pairwise (fun a b => a < b) := by
  induction songs with
  | nil => intro k; simp [corpusFrom]
  | cons t rest ih =>
    intro k
    simp only [corpusFrom, List.map_cons, List.pairwise_cons]
    refine ⟨?_, ih (k + 1)⟩
    intro b hb
    obtain ⟨p, hp, rfl⟩ := List.mem_map.1 hb
    have := corpusFrom_ge rest (k + 1) p hp
    omega

/-- The ranking that `main` builds is ordered by count and, among equal counts, by song
index. -/
theorem buildIndex_stable (topN : Int) (htop : 1 ≤ topN) (songs : List song) :
    ∃ r, buildIndex topN songs = some r ∧ ∀ w, (retained r w).Pairwise rankedBefore := by
  obtain ⟨r, hr, -, hst⟩ := stable_from_empty topN htop (corpusFrom 0 songs)
    (corpusFrom_ascending songs 0) (corpusFrom_keys songs 0)
    (updatesOf (corpusFrom 0 songs)).length
  rw [List.take_length] at hr
  refine ⟨r, ?_, hst⟩
  rw [buildIndex, processSongs_eq_ingestSongs, ingestSongs_eq_applyUpdates]
  exact hr

/-- C11 at the corpus with the single token "Love". -/
theorem absence_explicit_witness :
    (1 : Int) ≤ 10 ∧
    ∃ r, buildIndex 10 capitalSongs = some r ∧ ∀ w,
      (r w = none ↔ ¬ ∃ s ∈ capitalSongs, ∃ t ∈ s.lyrics, normalizeWord t = w) ∧
      (w ≠ "EXIT" →
        (doSearchStep 5 capitalSongs r (w ++ "\n") = some searchOutcome.notFound ↔
          ¬ ∃ s ∈ capitalSongs, ∃ t ∈ s.lyrics, normalizeWord t = w)) ∧
      (∀ g, r w = some g → g ≠ [] ∧ ∀ e ∈ g, e.positions ≠ []) :=
  ⟨by decide, absence_explicit 5 10 (by decide) capitalSongs⟩

/-- C16 at scenario 5 of the specification, whose songs 1 and 3 are tied at count 5. -/
theorem stable_tie_break_witness :
    (1 : Int) ≤ 3 ∧ (sunSongs.map Prod.fst).Pairwise (fun a b => a < b) ∧
    (∀ s ∈ sunSongs, (s.2.map Prod.fst).Nodup) ∧
    ∃ r, ingestSongs 3 emptyRanking sunSongs = some r ∧
      ∀ w, (retained r w).Pairwise rankedBefore :=
  ⟨by decide, by decide, by decide,
    (stable_tie_break 3 (by decide) sunSongs (by decide) (by decide)).1⟩

/-- C17 at the corpus of scenario 1 with `topN = 10`. -/
theorem retained_positions_valid_witness :
    (1 : Int) ≤ 10 ∧
    ∃ r, buildIndex 10 loveSongs = some r ∧
      ∀ w, ∀ e ∈ retained r w, ∃ s, goIndex loveSongs e.songIndex = some s ∧
        usageLookup (indexSong s.lyrics) w = some e.positions ∧
        e.positions = positionsOf s.lyrics w ∧ e.positions ≠ [] ∧
        e.positions.Sorted (fun a b => a < b) ∧
        ∀ p ∈ e.positions, 0 ≤ p ∧ p ≤ (s.lyrics.length : Int) - 1 ∧
          (s.lyrics[p.toNat]?).map normalizeWord = some w :=
  ⟨by decide, (retained_positions_valid 10 (by decide) loveSongs).1⟩

/-- C18 at scenario 2: song 1 is ingested into the ranking that retains song 0. -/
theorem ingestion_frame_witness :
    (1 : Int) ≤ 1 ∧
    ∃ r2, ingest 1 fireRanking 1 fireB.2 = some r2 ∧
      (∀ w, w ∉ fireB.2.map Prod.fst → r2 w = fireRanking w) ∧
      (∀ w, ∀ e ∈ retained r2 w,
        e ∈ retained fireRanking w ∨ ∃ pos, (w, pos) ∈ fireB.2 ∧ e = ⟨1, pos⟩) :=
  ⟨by decide, ingestion_frame 1 (by decide) 1 fireB.2 fireRanking⟩

/-- C19 at the usage map of a two-word song, processed in both orders. -/
theorem ingest_iteration_order_witness :
    (indexSong ["love", "is"]).Perm [("is", [1]), ("love", [0])] ∧
    ((indexSong ["love", "is"]).map Prod.fst).Nodup ∧
    ingest 1 fireRanking 1 (indexSong ["love", "is"]) =
      ingest 1 fireRanking 1 [("is", [1]), ("love", [0])] :=
  ⟨by decide, by decide,
    ingest_iteration_order 1 fireRanking 1 (indexSong ["love", "is"])
      [("is", [1]), ("love", [0])] (by decide) (by decide)⟩


/-! ## Normalization as implemented -/

theorem toNat_ofNat_small (n : Nat) (h : n < 55296) : (Char.ofNat n).toNat = n := by
  have hv : n.isValidChar := Or.inl h
  unfold Char.ofNat
  rw [dif_pos hv]
  simp [Char.toNat, Char.ofNatAux, UInt32.toNat]

theorem char_eq_of_toNat (c d : Char) (h : c.toNat = d.toNat) : c = d := by
  rw [← Char.ofNat_toNat c, ← Char.ofNat_toNat d, h]

theorem unicodeToLower_ascii (c : Char) (h : c.toNat < 128) :
    (unicodeToLower c).toNat =
      if 65 ≤ c.toNat ∧ c.toNat ≤ 90 then c.toNat + 32 else c.toNat := by
  unfold unicodeToLower
  rw [if_pos h]
  have hA : ('A' ≤ c) ↔ 65 ≤ c.toNat := by rw [Char.le_def]; rfl
  have hZ : (c ≤ 'Z') ↔ c.toNat ≤ 90 := by rw [Char.le_def]; rfl
  by_cases hc : 65 ≤ c.toNat ∧ c.toNat ≤ 90
  · rw [if_pos hc, if_pos ⟨hA.2 hc.1, hZ.2 hc.2⟩, toNat_ofNat_small _ (by omega)]
  · rw [if_neg hc, if_neg (fun hh => hc ⟨hA.1 hh.1, hZ.1 hh.2⟩)]

theorem isAlnumChar_iff (c : Char) :
    isAlnumChar c = true ↔
      (97 ≤ c.toNat ∧ c.toNat ≤ 122) ∨ (65 ≤ c.toNat ∧ c.toNat ≤ 90) ∨
        (48 ≤ c.toNat ∧ c.toNat ≤ 57) := by
  unfold isAlnumChar
  simp only [decide_eq_true_eq, Char.le_def]
  rfl

theorem ascii_lower_eq (c d : Char) (hc : c.toNat < 128) (hd : d.toNat < 128)
    (h : unicodeToLower c = unicodeToLower d) (hne : c ≠ d) :
    isAlnumChar c = true ∧ isAlnumChar d = true := by
  have h1 := congrArg Char.toNat h
  rw [unicodeToLower_ascii c hc, unicodeToLower_ascii d hd] at h1
  have hn : c.toNat ≠ d.toNat := fun e => hne (char_eq_of_toNat c d e)
  rw [isAlnumChar_iff, isAlnumChar_iff]
  split at h1 <;> split at h1 <;> omega

theorem ascii_tokens_eq (l1 : List Char) :
    ∀ l2 : List Char, (∀ c ∈ l1, c.toNat < 128) → (∀ c ∈ l2, c.toNat < 128) →
      l1.map unicodeToLower = l2.map unicodeToLower →
      l1.filter isAlnumChar = l2.filter isAlnumChar → l1 = l2 := by
  induction l1 with
  | nil =>
    intro l2 _ _ hmap _
    cases l2 with
    | nil => rfl
    | cons d l2 => simp at hmap
  | cons c l1 ih =>
    intro l2 h1 h2 hmap hfil
    cases l2 with
    | nil => simp at hmap
    | cons d l2 =>
      simp only [List.map_cons, List.cons.injEq] at hmap
      have hc := h1 c (List.mem_cons_self _ _)
      have hd := h2 d (List.mem_cons_self _ _)
      have hcd : c = d := by
        by_contra hne
        obtain ⟨ac, ad⟩ := ascii_lower_eq c d hc hd hmap.1 hne
        rw [List.filter_cons_of_pos ac, List.filter_cons_of_pos ad] at hfil
        exact hne (List.cons.inj hfil).1
      subst hcd
      have htail : l1.filter isAlnumChar = l2.filter isAlnumChar := by
        by_cases ac : isAlnumChar c = true
        · rw [List.filter_cons_of_pos ac, List.filter_cons_of_pos ac] at hfil
          exact (List.cons.inj hfil).2
        · rw [List.filter_cons_of_neg ac, List.filter_cons_of_neg ac] at hfil
          exact hfil
      rw [ih l2 (fun x hx => h1 x (List.mem_cons_of_mem _ hx))
        (fun x hx => h2 x (List.mem_cons_of_mem _ hx)) hmap.2 htail]

/-- C15 fails as stated for tokens with letters outside ASCII: the tokens "É" and "é"
differ only by characters outside `[a-zA-Z0-9]` (the replacement gives the empty string
for both), yet both are indexed under the key "é". -/
theorem same_key_for_case_variants :
    "É" ≠ "é" ∧
    regReplaceAllString "É" = regReplaceAllString "é" ∧
    normalizeWord "É" = normalizeWord "é" ∧
    indexSong ["É", "é"] = [("é", [0, 1])] := by
  decide

/-- C15, as amended. For every token `t` the key is the lower-casing of `t` itself: the
result of the regular-expression replacement is discarded and no character is removed
(the key is `t` with every character replaced by its lower-case mapping, so it has as
many characters as `t`), and every position of a song is indexed under the lower-cased
token at that position. Two different tokens of ASCII characters that differ only by
characters outside `[a-zA-Z0-9]` are indexed under different keys. For the token
"Love," the replacement would give "Love", but the key is "love,", which differs from
the key "love" of the token "Love"; likewise "love," and "love" have different keys. -/
theorem normalization_as_implemented :
    (∀ t : String, normalizeWord t = stringsToLower t ∧
      (normalizeWord t).data = t.data.map unicodeToLower ∧
      (normalizeWord t).length = t.length) ∧
    (∀ (lyrics : List String) (i : Nat) (hi : i < lyrics.length),
      ∃ pos, usageLookup (indexSong lyrics) (stringsToLower lyrics[i]) = some pos ∧
        (i : Int) ∈ pos) ∧
    (∀ t1 t2 : String, (∀ c ∈ t1.data, c.toNat < 128) → (∀ c ∈ t2.data, c.toNat < 128) →
      t1 ≠ t2 → regReplaceAllString t1 = regReplaceAllString t2 →
      normalizeWord t1 ≠ normalizeWord t2) ∧
    regReplaceAllString "Love," = "Love" ∧
    normalizeWord "Love," = "love," ∧
    normalizeWord "Love" = "love" ∧
    normalizeWord "Love," ≠ normalizeWord "Love" ∧
    regReplaceAllString "love," = "love" ∧
    normalizeWord "love," = "love," ∧
    normalizeWord "love" = "love" ∧
    normalizeWord "love," ≠ normalizeWord "love" ∧
    indexSong ["Love,", "love"] = [("love,", [0]), ("love", [1])] := by
  refine ⟨fun t => ⟨rfl, rfl, ?_⟩, ?_, ?_, by decide, by decide, by decide, by decide,
    by decide, by decide, by decide, by decide, by decide⟩
  · show (t.data.map unicodeToLower).length = t.data.length
    exact List.length_map _ _
  · intro lyrics i hi
    have hin : (i : Int) ∈ positionsOf lyrics (normalizeWord lyrics[i]) := by
      rw [mem_positionsOf]
      simp [List.getElem?_eq_getElem hi, hi]
    refine ⟨positionsOf lyrics (normalizeWord lyrics[i]), ?_, hin⟩
    have hk : stringsToLower lyrics[i] = normalizeWord lyrics[i] := rfl
    rw [hk, indexSong_lookup, if_neg (List.ne_nil_of_mem hin)]
  · intro t1 t2 h1 h2 hne hreg hkey
    apply hne
    have hmap : t1.data.map unicodeToLower = t2.data.map unicodeToLower :=
      congrArg String.data hkey
    have hfil : t1.data.filter isAlnumChar = t2.data.filter isAlnumChar :=
      congrArg String.data hreg
    have hdata := ascii_tokens_eq t1.data t2.data h1 h2 hmap hfil
    exact String.ext hdata


end SongSearch
